import Mathlib

/-!
Shallow embedding of the markup-preserving block translation engine of
`script_2.py` (EPUB → HTML translator).  Pure helpers (whitespace splitting,
chess-token recognition, batch chunking) are translated as Lean functions on
`String`/`List Char`; the stateful pipeline (translation cache, network calls,
cancellation event) is embedded as explicit state passing over a `St` record.
The external translation provider and the per-block `uuid` hex string are
oracles supplied as parameters.
-/

namespace EpubT

/-- Python `\s` / `str.strip()` whitespace set (the ASCII whitespace characters;
the program's regexes and `strip` agree on these). -/
def isWs (c : Char) : Bool :=
  c == ' ' || c == '\t' || c == '\n' || c == '\r' || c == '\x0b' || c == '\x0c'

/-- Left-trim: drop leading whitespace, as Python `lstrip` / regex `^\s*` residue. -/
def ltrimL (cs : List Char) : List Char := cs.dropWhile isWs

/-- Right-trim. -/
def rtrimL (cs : List Char) : List Char := ((cs.reverse.dropWhile isWs).reverse)

/-- Python `str.strip()`. -/
def stripL (cs : List Char) : List Char := rtrimL (ltrimL cs)

/-- Python `str.strip()` on `String`. -/
def pyStrip (s : String) : String := ⟨stripL s.data⟩

/-- Source: `LETTER_RE = [A-Za-zÀ-ÖØ-öø-ÿ]` (script_2.py line 418). -/
def isLetterRe (c : Char) : Bool :=
  ('A' ≤ c && c ≤ 'Z') || ('a' ≤ c && c ≤ 'z') ||
  (0xC0 ≤ c.val && c.val ≤ 0xD6) || (0xD8 ≤ c.val && c.val ≤ 0xF6) ||
  (0xF8 ≤ c.val && c.val ≤ 0xFF)

/-- Source: `has_letters(s)` (line 421): some character matches `LETTER_RE`. -/
def has_letters (s : String) : Bool := s.data.any isLetterRe

/-- Source: `split_ws(s)` (lines 425-430): `(^\s*` match, `s.strip()`, `\s*$` match`)`.
`re.match(r"^\s*", s)` is the maximal leading whitespace run; `re.search(r"\s*$", s)`
matches at the start of the maximal trailing whitespace run (the earliest position
from which `\s*` can reach the end of the string), so it is that trailing run. -/
def split_ws (s : String) : String × String × String :=
  (⟨s.data.takeWhile isWs⟩, pyStrip s, ⟨(s.data.reverse.takeWhile isWs).reverse⟩)

/-! ### Chess-token grammar (`CHESS_MOVE_TOKEN`, `MOVE_NUM`, `RESULT_TOK`, lines 355-364)

A matcher is a function from the remaining characters to the list of
candidate consumed lengths, ordered by the Python `re` backtracking
preference (alternatives in source order, greedy quantifiers longest-first).
A boolean `fullmatch` asks whether the whole string is a candidate; `re.sub`
takes the first candidate at the leftmost matching position. -/

abbrev Mt := List Char → List Nat

/-- Literal string matcher. -/
def mlit (w : List Char) : Mt := fun cs => if w.isPrefixOf cs then [w.length] else []

/-- Single character class matcher. -/
def mcls (p : Char → Bool) : Mt := fun cs =>
  match cs with
  | c :: _ => if p c then [1] else []
  | [] => []

/-- Greedy `X?`: try consuming `X` first, then the empty alternative. -/
def mopt (m : Mt) : Mt := fun cs => m cs ++ [0]

/-- Sequencing with backtracking preference order. -/
def mseq (a b : Mt) : Mt := fun cs =>
  (a cs).flatMap (fun n => (b (cs.drop n)).map (n + ·))

/-- Ordered alternation. -/
def malt (ms : List Mt) : Mt := fun cs => ms.flatMap (fun m => m cs)

/-- Greedy `\s*`: all lengths of leading-whitespace prefixes, longest first. -/
def mstarWs : Mt := fun cs =>
  let k := (cs.takeWhile isWs).length
  (List.range (k + 1)).reverse

/-- Greedy `\d+`: all nonzero lengths of leading-digit prefixes, longest first. -/
def mplusDigits : Mt := fun cs =>
  let k := (cs.takeWhile Char.isDigit).length
  (List.range' 1 k).reverse

def mPiece : Mt := mcls (fun c => c == 'K' || c == 'Q' || c == 'R' || c == 'B' || c == 'N')
def mFile : Mt := mcls (fun c => 'a' ≤ c && c ≤ 'h')
def mRank : Mt := mcls (fun c => '1' ≤ c && c ≤ '8')
def mX : Mt := mcls (· == 'x')
def mPromo : Mt := mseq (mcls (· == '=')) (mcls (fun c => c == 'Q' || c == 'R' || c == 'B' || c == 'N'))
def mCheckMate : Mt := mcls (fun c => c == '+' || c == '#')

/-- Source: `[KQRBN]?[a-h]?[1-8]?x?[a-h][1-8](?:=[QRBN])?[+#]?`. -/
def mMOVE : Mt :=
  mseq (mopt mPiece) (mseq (mopt mFile) (mseq (mopt mRank) (mseq (mopt mX)
    (mseq mFile (mseq mRank (mseq (mopt mPromo) (mopt mCheckMate)))))))

/-- Source: `[a-h]x?[a-h][1-8](?:=[QRBN])?[+#]?`. -/
def mPAWN : Mt :=
  mseq mFile (mseq (mopt mX) (mseq mFile (mseq mRank (mseq (mopt mPromo) (mopt mCheckMate)))))

/-- Source: `\d+\.(?:\.\.)?\s*(?:O-O-O|O-O|MOVE|PAWN)` (third alternative). -/
def mNumMove : Mt :=
  mseq mplusDigits (mseq (mlit ['.']) (mseq (mopt (mlit ['.', '.']))
    (mseq mstarWs (malt [mlit "O-O-O".data, mlit "O-O".data, mMOVE, mPAWN]))))

/-- Source: `(1-0|0-1|1/2-1/2|\*)`. -/
def mResult : Mt :=
  malt [mlit "1-0".data, mlit "0-1".data, mlit "1/2-1/2".data, mlit "*".data]

/-- Python `\w` on the characters this program manipulates. -/
def isWordChar (c : Char) : Bool := c.isAlphanum || c == '_' || isLetterRe c

/-- Source: `\b` between a left character and a right character (`none` = string edge). -/
def bnd (l r : Option Char) : Bool :=
  (match l with | some c => isWordChar c | none => false) !=
  (match r with | some c => isWordChar c | none => false)

/-- Candidate lengths of one regex alternative with its `\b` anchors applied,
at a position whose previous character is `l`. -/
def withB (startB endB : Bool) (m : Mt) (l : Option Char) (cs : List Char) : List Nat :=
  (m cs).filter (fun n =>
    (!startB || bnd l cs.head?) &&
    (!endB || bnd (if n = 0 then l else cs.get? (n - 1)) (cs.get? n)))

/-- All candidate match lengths of `CHESS_MOVE_TOKEN` at a position with previous
character `l`, in backtracking preference order (source alternative order). -/
def chessCands (l : Option Char) (cs : List Char) : List Nat :=
  withB true true (mlit "O-O-O".data) l cs ++
  withB true true (mlit "O-O".data) l cs ++
  withB true false mNumMove l cs ++
  withB true true mMOVE l cs ++
  withB true true mPAWN l cs ++
  withB true true mResult l cs

/-- Source: `CHESS_MOVE_TOKEN.fullmatch(s)` as a boolean. -/
def chessFullmatch (s : String) : Bool := (chessCands none s.data).contains s.data.length

/-- Source: `MOVE_NUM.match(x)`: `^\d+\.(?:\.\.)?$|^\d+\.\.\.$` (the second alternative is
subsumed by the first; tokens contain no newline, so `$` is end of string). -/
def move_num_match (s : String) : Bool :=
  let k := (s.data.takeWhile Char.isDigit).length
  decide (0 < k) && (s.data.drop k == ['.'] || s.data.drop k == ['.', '.', '.'])

/-- Source: `RESULT_TOK.match(x)`: `^(1-0|0-1|1/2-1/2|\*)$`. -/
def result_tok_match (s : String) : Bool :=
  s == "1-0" || s == "0-1" || s == "1/2-1/2" || s == "*"

/-- Python `str.strip(",;")`. -/
def stripPunct (s : String) : String :=
  let p : Char → Bool := fun c => c == ',' || c == ';'
  ⟨((s.data.dropWhile p).reverse.dropWhile p).reverse⟩

theorem length_dropWhile_le (p : Char → Bool) :
    ∀ l : List Char, (l.dropWhile p).length ≤ l.length := by
  intro l
  induction l with
  | nil => simp
  | cons c cs ih =>
    by_cases h : p c
    · simp only [List.dropWhile_cons, h, if_true]
      exact Nat.le_succ_of_le ih
    · simp [List.dropWhile_cons, h]

theorem dropWhile_head_not (p : Char → Bool) :
    ∀ (l : List Char) (c : Char) (rest : List Char),
      l.dropWhile p = c :: rest → p c = false := by
  intro l
  induction l with
  | nil => intro c rest h; simp at h
  | cons d ds ih =>
    intro c rest h
    by_cases hd : p d
    · rw [List.dropWhile_cons, if_pos hd] at h
      exact ih c rest h
    · rw [List.dropWhile_cons, if_neg hd] at h
      cases h
      exact Bool.eq_false_iff.mpr hd

/-- Fuelled worker for `tokensL`: each step consumes at least one character,
so `cs.length` fuel is never exhausted (the fuel-0 branch is unreachable; the
fuel only makes the recursion structural, hence kernel-computable). -/
def tokensLF : Nat → List Char → List (List Char)
  | 0, _ => []
  | fuel + 1, cs =>
    match cs.dropWhile isWs with
    | [] => []
    | c :: rest =>
      ((c :: rest).takeWhile (fun d => !isWs d)) ::
        tokensLF fuel ((c :: rest).dropWhile (fun d => !isWs d))

/-- Source: `re.split(r"\s+", t)` on an already stripped, non-empty string: the list of
maximal non-whitespace runs. -/
def tokensL (cs : List Char) : List (List Char) := tokensLF cs.length cs

/-- One loop body of `looks_like_chess_line` (lines 377-384): does this token
count as chess? -/
def isChessTok (tk : List Char) : Bool :=
  let x := stripPunct (pyStrip ⟨tk⟩)
  move_num_match x || result_tok_match x || chessFullmatch x

/-- Source: `looks_like_chess_line(text)` (lines 367-385).  The final float comparison
`chess / len(toks) >= 0.60` is modelled as the exact rational comparison
`3 * len(toks) <= 5 * chess`; IEEE double division only deviates from the exact
comparison for token counts around `10^16`, far beyond any real line. -/
def looks_like_chess_line (text : String) : Bool :=
  let t := pyStrip text
  if t == "" then false
  else
    let toks := tokensL t.data
    if toks.length < 3 then false
    else
      let chess := (toks.filter isChessTok).length
      decide (3 * toks.length ≤ 5 * chess)

/-- Marker `⟬MV<i>⟭` produced by `mask_chess_moves_in_text` (line 394). -/
def mask_marker (i : Nat) : String := "⟬MV" ++ Nat.repr i ++ "⟭"

/-- The scan of `CHESS_MOVE_TOKEN.sub` (line 399): at each position, if the
pattern matches (preferred candidate first), replace the match with the next
marker and continue after it; otherwise copy one character.  `l` is the
character before the current position (for `\b`).  The grammar cannot match
the empty string (every alternative has a mandatory atom); the `n = 0` guard
and the fuel (each step consumes at least one character, so `cs.length` fuel
is never exhausted) only make the recursion structural. -/
def maskGo : Nat → Option Char → List Char → Nat → List (String × String) →
    List Char × List (String × String)
  | 0, _, cs, _, mapping => (cs, mapping)
  | _ + 1, _, [], _, mapping => ([], mapping)
  | fuel + 1, l, c :: rest, i, mapping =>
    match (chessCands l (c :: rest)).head? with
    | some n =>
      let n' := if n = 0 then 1 else n
      let matched : List Char := (c :: rest).take n'
      let key := mask_marker i
      let r := maskGo fuel ((c :: rest).get? (n' - 1)) ((c :: rest).drop n') (i + 1)
        (mapping ++ [(key, ⟨matched⟩)])
      (key.data ++ r.1, r.2)
    | none =>
      let r := maskGo fuel (some c) rest i mapping
      (c :: r.1, r.2)

/-- Source: `mask_chess_moves_in_text(text)` (lines 388-400). -/
def mask_chess_moves_in_text (text : String) : String × List (String × String) :=
  let r := maskGo text.data.length none text.data 0 []
  (⟨r.1⟩, r.2)

/-- Fuelled worker for `listReplace` (fuel as in `maskGo`). -/
def listReplaceF (pat rep : List Char) : Nat → List Char → List Char
  | 0, cs => cs
  | _ + 1, [] => []
  | fuel + 1, c :: rest =>
    if pat.isPrefixOf (c :: rest) && !pat.isEmpty then
      rep ++ listReplaceF pat rep fuel ((c :: rest).drop pat.length)
    else
      c :: listReplaceF pat rep fuel rest

/-- Replace every (leftmost, non-overlapping) occurrence of `pat` by `rep`. -/
def listReplace (pat rep cs : List Char) : List Char :=
  listReplaceF pat rep cs.length cs

/-- Source: `unmask_chess_moves(text, mapping)` (lines 403-411).  For each mapping pair
the code substitutes `(\s*)key(\s*)` by `group1 + value + group2`; since both
whitespace groups are emitted verbatim, each substitution is exactly the
replacement of every occurrence of the marker by the recorded token. -/
def unmask_chess_moves (text : String) (mapping : List (String × String)) : String :=
  mapping.foldl (fun out kv => ⟨listReplace kv.1.data kv.2.data out.data⟩) text

/-! ### The markup tree (lxml elements)

An lxml element has a tag (a string for real elements; comments and processing
instructions have a non-string tag, modelled as `none`), attributes, a `text`
(text before the first child), a `tail` (text after the element, owned by the
element itself, as in lxml) and children. -/

inductive Elem : Type where
  | mk (tag : Option String) (attrs : List (String × String)) (text : Option String)
       (tail : Option String) (children : List Elem)

def Elem.tag : Elem → Option String | .mk t _ _ _ _ => t
def Elem.attrs : Elem → List (String × String) | .mk _ a _ _ _ => a
def Elem.text : Elem → Option String | .mk _ _ tx _ _ => tx
def Elem.tail : Elem → Option String | .mk _ _ _ tl _ => tl
def Elem.children : Elem → List Elem | .mk _ _ _ _ ch => ch

/-- Replace the `tail` field. -/
def withTail : Elem → Option String → Elem
  | .mk t a tx _ ch, tl => .mk t a tx tl ch

/-- Source: `SKIP_TAGS` (line 417). -/
def SKIP_TAGS : List String :=
  ["script", "style", "head", "title", "meta", "link", "code", "pre", "kbd", "samp"]

/-- ASCII lowercase of a tag name (Python `str.lower()` on ASCII tag names). -/
def lowerStr (s : String) : String := ⟨s.data.map Char.toLower⟩

/-- The guard used both in `rec` and for tail slots (lines 437-439, 448):
the tag is a string and its lowercase form is not in `SKIP_TAGS`. -/
def okTag : Option String → Bool
  | some t => !(SKIP_TAGS.contains (lowerStr t))
  | none => false

mutual

/-- Source: `collect_text_slots_in_block(block_el)` (lines 433-453), as the ordered
list of slot contents (each slot is an element `text` or a child `tail`; the
write-back walks the same order, so positions are represented positionally). -/
def collect_text_slots_in_block : Elem → List String
  | .mk t _ tx _ ch =>
    if okTag t then
      (match tx with | some s => [s] | none => []) ++ collectSlotsL ch
    else []

/-- The child loop of `rec` (lines 446-450): recurse into the child, then emit
the child's tail when the child is a real non-skip element with a tail. -/
def collectSlotsL : List Elem → List String
  | [] => []
  | c :: cs =>
    collect_text_slots_in_block c ++
    (if okTag c.tag then (match c.tail with | some s => [s] | none => []) else []) ++
    collectSlotsL cs

end

/-- Consume at most one slot replacement for a `text`/`tail` field: `none` in
the replacement stream leaves the original value (non-surviving slot),
`some v` overwrites it (the `setattr` of line 538). -/
def applyText (tx : Option String) (news : List (Option String)) :
    Option String × List (Option String) :=
  match tx with
  | none => (none, news)
  | some s =>
    match news with
    | [] => (some s, [])
    | none :: rest => (some s, rest)
    | some v :: rest => (some v, rest)

mutual

/-- The write-back of lines 536-538 as a pure tree rebuild: thread the ordered
replacement stream through the same traversal as `collect_text_slots_in_block`,
replacing each surviving slot's content. -/
def applySlots : Elem → List (Option String) → Elem × List (Option String)
  | .mk t a tx tl ch, news =>
    if okTag t then
      let p1 := applyText tx news
      let p2 := applySlotsL ch p1.2
      (.mk t a p1.1 tl p2.1, p2.2)
    else (.mk t a tx tl ch, news)

/-- Child-list counterpart of `applySlots` (tail slots belong to the parent's
loop, as in the source). -/
def applySlotsL : List Elem → List (Option String) → List Elem × List (Option String)
  | [], news => ([], news)
  | c :: cs, news =>
    let p1 := applySlots c news
    let pt := if okTag c.tag then applyText c.tail p1.2 else (c.tail, p1.2)
    let p2 := applySlotsL cs pt.2
    (withTail p1.1 pt.1 :: p2.1, p2.2)

end

/-- Canonicalise the content of a text field that is a writable slot. -/
def maskText : Option String → Option String
  | none => none
  | some _ => some ""

mutual

/-- Erase the contents of exactly the writable slot positions (the positions
`collect_text_slots_in_block` visits).  Two trees are equal under `maskSlots`
iff they differ at most in those slot contents. -/
def maskSlots : Elem → Elem
  | .mk t a tx tl ch =>
    if okTag t then .mk t a (maskText tx) tl (maskSlotsL ch)
    else .mk t a tx tl ch

def maskSlotsL : List Elem → List Elem
  | [] => []
  | c :: cs =>
    (if okTag c.tag then withTail (maskSlots c) (maskText c.tail) else maskSlots c) ::
      maskSlotsL cs

end

/-- The tag/attribute/child structure of a tree, with all text content erased. -/
inductive Shape : Type where
  | mk (tag : Option String) (attrs : List (String × String)) (children : List Shape)

mutual

def shapeOf : Elem → Shape
  | .mk t a _ _ ch => .mk t a (shapesOf ch)

def shapesOf : List Elem → List Shape
  | [] => []
  | c :: cs => shapeOf c :: shapesOf cs

end

/-- A position in the tree: the sequence of child indices from the root. -/
abbrev Path := List Nat

mutual

/-- The selection `doc.xpath("//body//*[self::t1 or ...]")` built by
`build_block_xpath` (lines 670-683): document-order paths of every element
that is a strict descendant of a `body` element and whose tag is one of the
selected tag names (lxml's HTML parser lowercases tags, so matching is exact). -/
def pathsUnder (selTags : List String) (inBody : Bool) (e : Elem) (cur : Path) : List Path :=
  match e with
  | .mk t _ _ _ ch =>
    (if inBody && (match t with | some tg => selTags.contains tg | none => false)
     then [cur] else []) ++
    pathsUnderL selTags (inBody || (t == some "body")) ch cur 0

def pathsUnderL (selTags : List String) (inB : Bool) :
    List Elem → Path → Nat → List Path
  | [], _, _ => []
  | c :: cs, cur, i =>
    pathsUnder selTags inB c (cur ++ [i]) ++ pathsUnderL selTags inB cs cur (i + 1)

end

/-- Follow a path to a subtree. -/
def getAt : Elem → Path → Option Elem
  | e, [] => some e
  | e, i :: p =>
    match e.children.get? i with
    | some c => getAt c p
    | none => none

/-- Replace the subtree at a path (models in-place mutation of a shared
lxml element: the block translator mutates only the block's own subtree). -/
def setAt : Elem → Path → Elem → Elem
  | _, [], b => b
  | .mk t a tx tl ch, i :: p, b =>
    match ch.get? i with
    | some c => .mk t a tx tl (ch.set i (setAt c p b))
    | none => .mk t a tx tl ch

/-- Attribute serialisation for `tostringHtml`. -/
def attrsStr : List (String × String) → String
  | [] => ""
  | (k, v) :: rest => " " ++ k ++ "=\x22" ++ v ++ "\x22" ++ attrsStr rest

mutual

/-- Source: `lxml_html.tostring(doc, encoding="unicode", method="html")` (line 576),
abstracted to a plain serialiser: tag with attributes, text, children in
order with their tails.  The claims depend only on the shape of the output
string (its doctype first line), not on lxml's escaping or void-element rules,
which are not reproduced here. -/
def tostringHtml : Elem → String
  | .mk t a tx _ ch =>
    match t with
    | some tag =>
      "<" ++ tag ++ attrsStr a ++ ">" ++ (match tx with | some s => s | none => "") ++
        tostringL ch ++ "</" ++ tag ++ ">"
    | none => ""

def tostringL : List Elem → String
  | [] => ""
  | c :: cs =>
    tostringHtml c ++ (match c.tail with | some s => s | none => "") ++ tostringL cs

end

/-! ### The stateful pipeline

`St` carries the translation cache (`TRANSLATION_CACHE`, line 32), a logical
clock `tick` advanced at every cancellation check and every network call, the
ticks at which network calls were issued, the progress events delivered to
`progress_cb`, and two instrumentation fields for the cancellation claims:
`observed` records whether some `stop_event.is_set()` check has returned true,
and `callsAfterObs` counts network calls issued after that.  The cancellation
event is an oracle `stop : Nat → Bool` sampled at the current tick; the
external provider is an oracle from (number of previous calls, text, language)
to `some translation` or `none` (= a raised provider exception). -/

structure St where
  tick : Nat
  callTicks : List Nat
  cache : List ((String × String) × String)
  observed : Bool
  callsAfterObs : Nat
  events : List (Nat × Nat × String)
deriving DecidableEq, Repr

/-- The two terminal failure modes of a driver call: `RuntimeError("Annullato")`
(cancellation, lines 556/567) and a provider exception surviving all retries
(line 60).  They are distinct values, so cancellation is never mistaken for a
fatal translation error. -/
inductive DrvErr : Type where
  | annullato
  | provider
deriving DecidableEq, Repr

/-- Source: `stop_event.is_set()`: sample the cancellation oracle at the current tick. -/
def checkStop (stop : Nat → Bool) (s : St) : Bool × St :=
  (stop s.tick,
   { s with tick := s.tick + 1, observed := s.observed || stop s.tick })

/-- One call of `translator.translate` (line 52): ask the provider oracle;
`none` models a raised exception (timeout / HTTP error / anything). -/
def netCall (provider : Nat → String → String → Option String)
    (text lang : String) (s : St) : Option String × St :=
  (provider s.callTicks.length text lang,
   { s with tick := s.tick + 1,
            callTicks := s.callTicks ++ [s.tick],
            callsAfterObs := s.callsAfterObs + (if s.observed then 1 else 0) })

/-- Dictionary lookup in the cache list (keys are inserted at most once). -/
def assocLookup (l : List ((String × String) × String)) (k : String × String) :
    Option String :=
  match l with
  | [] => none
  | (k', v) :: rest => if k' = k then some v else assocLookup rest k

/-- The retry loop of `translate_text` (lines 50-61): up to `n` attempts; a
successful attempt stores the result in the cache and returns it; the last
failed attempt re-raises (`asyncio.sleep` backoff between attempts has no
observable effect here and is not modelled). -/
def tryAttempts (provider : Nat → String → String → Option String)
    (t lang : String) : Nat → St → Except DrvErr String × St
  | 0, s => (.error .provider, s)
  | n + 1, s =>
    match netCall provider t lang s with
    | (some out, s1) => (.ok out, { s1 with cache := s1.cache ++ [((t, lang), out)] })
    | (none, s1) =>
      if n = 0 then (.error .provider, s1) else tryAttempts provider t lang n s1

/-- Source: `translate_text(text, target_lang)` (lines 39-63) with the default
`retries=4`.  `text` is `Option String` because the Python parameter may be
`None` (`(text or "").strip()`). -/
def translate_text (provider : Nat → String → String → Option String)
    (text : Option String) (lang : String) (s : St) : Except DrvErr String × St :=
  let t := pyStrip (text.getD "")
  if t = "" then (.ok t, s)
  else
    match assocLookup s.cache (t, lang) with
    | some v => (.ok v, s)
    | none => tryAttempts provider t lang 4 s

/-- The slot filter of `translate_one_block_preserve_markup` (lines 468-487):
discard empty originals, originals without letters, empty cores and whole
chess-notation lines; mask chess tokens in the surviving core.  Returns
`(prefix, masked core, suffix, move map)`. -/
def surviveSlot (orig : String) :
    Option (String × String × String × List (String × String)) :=
  if orig = "" then none
  else if !has_letters orig then none
  else
    let pcs := split_ws orig
    if pcs.2.1 = "" then none
    else if looks_like_chess_line pcs.2.1 then none
    else
      let m := mask_chess_moves_in_text pcs.2.1
      some (pcs.1, m.1, pcs.2.2, m.2)

/-- The greedy batching loop of lines 494-507: accumulate cores into the
current chunk; if adding the next core (its length plus one delimiter length
when the chunk is non-empty) would push a non-empty chunk past the budget,
close the chunk and start a new one. -/
def chunkStep (delim : String) (maxPayload : Nat)
    (acc : List (List String) × List String × Nat) (c : String) :
    List (List String) × List String × Nat :=
  let addLen := c.length + (if acc.2.1.isEmpty then 0 else delim.length)
  if !acc.2.1.isEmpty && decide (maxPayload < acc.2.2 + addLen) then
    (acc.1 ++ [acc.2.1], [c], c.length)
  else
    (acc.1, acc.2.1 ++ [c], acc.2.2 + addLen)

def chunkCores (delim : String) (maxPayload : Nat) (cores : List String) :
    List (List String) :=
  let r := cores.foldl (chunkStep delim maxPayload) ([], [], 0)
  if r.2.1.isEmpty then r.1 else r.1 ++ [r.2.1]

/-- Source: `delim.join(chunk)` (line 515). -/
def joinDelim (delim : String) : List String → String
  | [] => ""
  | [c] => c
  | c :: cs => c ++ delim ++ joinDelim delim cs

/-- Leftmost index at which `pat` occurs in `cs`. -/
def findSub (pat : List Char) : List Char → Option Nat
  | [] => if pat.isEmpty then some 0 else none
  | c :: cs =>
    if pat.isPrefixOf (c :: cs) then some 0
    else (findSub pat cs).map (· + 1)

/-- Source: `re.split(rf"\s*{delim}\s*", translated)` (line 518): each match of the
pattern is one occurrence of the delimiter together with the whitespace
around it (the delimiter contains no whitespace, so matches never merge);
parts are the segments between matches.  Fuelled as in `maskGo` (each
recursive step consumes at least `dl.length ≥ 1` characters). -/
def splitDelimLF (dl : List Char) : Nat → List Char → List (List Char)
  | 0, cs => [cs]
  | fuel + 1, cs =>
    if dl.isEmpty then [cs]
    else
      match findSub dl cs with
      | none => [cs]
      | some p =>
        rtrimL (cs.take p) ::
          splitDelimLF dl fuel ((cs.drop (p + dl.length)).dropWhile isWs)

def splitDelimL (dl : List Char) (cs : List Char) : List (List Char) :=
  splitDelimLF dl (cs.length + 1) cs

def splitDelim (delim : String) (s : String) : List String :=
  (splitDelimL delim.data s.data).map (fun l => ⟨l⟩)

/-- The per-core fallback loop (lines 520-525) and the extreme fallback loop
(lines 530-534), which share the same shape: for each core, check cancellation,
then translate it individually.  `none` is the `CANCEL` outcome. -/
def fallbackCores (stop : Nat → Bool) (provider : Nat → String → String → Option String)
    (lang : String) : List String → St → Except DrvErr (Option (List String)) × St
  | [], s => (.ok (some []), s)
  | c :: cs, s =>
    match checkStop stop s with
    | (true, s1) => (.ok none, s1)
    | (false, s1) =>
      match translate_text provider (some c) lang s1 with
      | (.error e, s2) => (.error e, s2)
      | (.ok t, s2) =>
        match fallbackCores stop provider lang cs s2 with
        | (.ok (some parts), s3) => (.ok (some (t :: parts)), s3)
        | other => other

/-- The batch loop of lines 511-527: per chunk, check cancellation, translate
the joined payload, split on the delimiter; when the number of parts does not
match the chunk size, translate that chunk's cores individually. -/
def processChunks (stop : Nat → Bool) (provider : Nat → String → String → Option String)
    (lang delim : String) :
    List (List String) → St → Except DrvErr (Option (List String)) × St
  | [], s => (.ok (some []), s)
  | ch :: rest, s =>
    match checkStop stop s with
    | (true, s1) => (.ok none, s1)
    | (false, s1) =>
      match translate_text provider (some (joinDelim delim ch)) lang s1 with
      | (.error e, s2) => (.error e, s2)
      | (.ok translated, s2) =>
        let parts := splitDelim delim translated
        match (if parts.length ≠ ch.length
               then fallbackCores stop provider lang ch s2
               else (.ok (some parts), s2) :
                Except DrvErr (Option (List String)) × St) with
        | (.ok (some ps), s3) =>
          match processChunks stop provider lang delim rest s3 with
          | (.ok (some rs), s4) => (.ok (some (ps ++ rs)), s4)
          | other => other
        | other => other

/-- Batch translation of the masked cores: the chunk loop followed by the
extreme fallback of lines 529-534 (if the total part count differs from the
slot count — `len(slots) = len(cores)` by construction — discard everything
and translate every core individually). -/
def producePartsForCores (stop : Nat → Bool)
    (provider : Nat → String → String → Option String)
    (lang delim : String) (maxPayload : Nat) (cores : List String) (s : St) :
    Except DrvErr (Option (List String)) × St :=
  match processChunks stop provider lang delim (chunkCores delim maxPayload cores) s with
  | (.ok (some outParts), s1) =>
    if outParts.length ≠ cores.length then fallbackCores stop provider lang cores s1
    else (.ok (some outParts), s1)
  | other => other

/-- Build the per-position replacement stream for the write-back loop
(lines 536-538): surviving positions receive
`prefix ++ unmask(translated part, move map) ++ suffix`, other positions are
left untouched. -/
def buildNews :
    List (Option (String × String × String × List (String × String))) →
    List String → List (Option String)
  | [], _ => []
  | none :: rest, parts => none :: buildNews rest parts
  | some pcs :: rest, parts =>
    match parts with
    | p :: ps =>
      some (pcs.1 ++ unmask_chess_moves p pcs.2.2.2 ++ pcs.2.2.1) :: buildNews rest ps
    | [] => none :: buildNews rest []

/-- Source: `translate_one_block_preserve_markup(block_el, lang, max_payload_chars,
stop_event)` (lines 456-540).  `hex` is the `uuid.uuid4().hex` oracle for this
call; the result string is the source's own `"CANCEL"` / `"OK"`. -/
def translate_one_block_preserve_markup (stop : Nat → Bool)
    (provider : Nat → String → String → Option String)
    (block : Elem) (lang : String) (maxPayload : Nat) (hex : String) (s : St) :
    Except DrvErr (String × Elem) × St :=
  match checkStop stop s with
  | (true, s1) => (.ok ("CANCEL", block), s1)
  | (false, s1) =>
    let surv := (collect_text_slots_in_block block).map surviveSlot
    let survivors := surv.filterMap id
    if survivors.isEmpty then (.ok ("OK", block), s1)
    else
      let delim := "␞" ++ hex ++ "␞"
      let cores := survivors.map (fun x => x.2.1)
      match producePartsForCores stop provider lang delim maxPayload cores s1 with
      | (.ok (some parts), s2) =>
        (.ok ("OK", (applySlots block (buildNews surv parts)).1), s2)
      | (.ok none, s2) => (.ok ("CANCEL", block), s2)
      | (.error e, s2) => (.error e, s2)

/-- Deliver one progress event (`progress_cb(done, total, msg)`). -/
def pushEvent (s : St) (ev : Nat × Nat × String) : St :=
  { s with events := s.events ++ [ev] }

/-- The block loop of `translate_full_html_blocks` (lines 554-574): check
cancellation at the top of each iteration (raise `Annullato`), skip blocks
whose tag is in `SKIP_TAGS` (progress only), otherwise translate the block in
place, raising `Annullato` on a `CANCEL` result.  `hexs` supplies the per-call
uuid hex; `throttle` sleeping has no observable effect and is not modelled. -/
def driverGo (stop : Nat → Bool) (provider : Nat → String → String → Option String)
    (lang : String) (maxPayload : Nat) (hexs : Nat → String) (total : Nat) :
    List Path → Elem → Nat → St → Except DrvErr Elem × St
  | [], doc, _, s => (.ok doc, s)
  | p :: rest, doc, done, s =>
    match checkStop stop s with
    | (true, s1) => (.error .annullato, s1)
    | (false, s1) =>
      match getAt doc p with
      | none =>
        -- unreachable: paths are computed on this document and its shape is
        -- preserved by every block translation (mutation via element
        -- references in the source never invalidates them)
        driverGo stop provider lang maxPayload hexs total rest doc done s1
      | some blk =>
        let tag := match blk.tag with | some t => lowerStr t | none => ""
        if SKIP_TAGS.contains tag then
          driverGo stop provider lang maxPayload hexs total rest doc (done + 1)
            (pushEvent s1 (done + 1, total, "Skip <" ++ tag ++ ">"))
        else
          match translate_one_block_preserve_markup stop provider blk lang maxPayload
              (hexs done) s1 with
          | (.error e, s2) => (.error e, s2)
          | (.ok r, s2) =>
            if r.1 = "CANCEL" then (.error .annullato, s2)
            else
              driverGo stop provider lang maxPayload hexs total rest (setAt doc p r.2)
                (done + 1) (pushEvent s2 (done + 1, total, "Traduzione <" ++ tag ++ ">"))

/-- Source: `translate_full_html_blocks(in_path, out_path, lang, block_xpath,
max_payload_chars, throttle_s, progress_cb, stop_event)` (lines 543-580).
The already parsed document stands for the contents of `in_path` (parsing is
lxml's job); the returned string is the content written to `out_path`
(`"<!doctype html>\n"` prepended to the serialised tree); the final tree is
returned alongside for the structural claims.  `selTags` is the tag selection
from which `build_block_xpath` forms `//body//*[self::t or ...]`. -/
def translate_full_html_blocks (stop : Nat → Bool)
    (provider : Nat → String → String → Option String)
    (doc : Elem) (lang : String) (selTags : List String) (maxPayload : Nat)
    (hexs : Nat → String) (s : St) : Except DrvErr (String × Elem) × St :=
  let blocks := pathsUnder selTags false doc []
  match driverGo stop provider lang maxPayload hexs blocks.length blocks doc 0 s with
  | (.ok doc1, s1) => (.ok ("<!doctype html>\n" ++ tostringHtml doc1, doc1), s1)
  | (.error e, s1) => (.error e, s1)

/-- The payload length of a batch: the sum of its cores' lengths plus one
delimiter length between each pair of consecutive cores (this is
`len(delim.join(chunk))`). -/
def payloadLen (delim : String) (chunk : List String) : Nat :=
  (chunk.map String.length).sum + delim.length * (chunk.length - 1)

/-- The budget invariant for one batch. -/
def goodChunk (delim : String) (maxPayload : Nat) (chunk : List String) : Prop :=
  payloadLen delim chunk ≤ maxPayload ∨ ∃ c, chunk = [c] ∧ maxPayload < c.length

theorem payloadLen_nil (delim : String) : payloadLen delim [] = 0 := by
  simp [payloadLen]

theorem payloadLen_singleton (delim : String) (c : String) :
    payloadLen delim [c] = c.length := by
  simp [payloadLen]

theorem payloadLen_append (delim : String) (cur : List String) (c : String)
    (h : cur ≠ []) :
    payloadLen delim (cur ++ [c]) = payloadLen delim cur + (c.length + delim.length) := by
  obtain ⟨k, hk⟩ : ∃ k, cur.length = k + 1 := by
    cases cur with
    | nil => exact absurd rfl h
    | cons a l => exact ⟨l.length, by simp⟩
  simp only [payloadLen, List.map_append, List.sum_append, List.length_append, hk,
    List.length_singleton, List.map_cons, List.map_nil, List.sum_cons, List.sum_nil,
    Nat.add_sub_cancel]
  ring

theorem chunkStep_inv (delim : String) (maxPayload : Nat)
    (acc : List (List String) × List String × Nat) (c : String)
    (h1 : ∀ ch ∈ acc.1, goodChunk delim maxPayload ch)
    (h2 : acc.2.2 = payloadLen delim acc.2.1)
    (h3 : goodChunk delim maxPayload acc.2.1) :
    (∀ ch ∈ (chunkStep delim maxPayload acc c).1, goodChunk delim maxPayload ch) ∧
    (chunkStep delim maxPayload acc c).2.2 =
      payloadLen delim (chunkStep delim maxPayload acc c).2.1 ∧
    goodChunk delim maxPayload (chunkStep delim maxPayload acc c).2.1 := by
  obtain ⟨chunks, current, clen⟩ := acc
  simp only at h1 h2 h3
  have hsing : goodChunk delim maxPayload [c] := by
    rcases le_or_lt c.length maxPayload with hle | hlt
    · exact Or.inl (by simpa [payloadLen_singleton] using hle)
    · exact Or.inr ⟨c, rfl, hlt⟩
  by_cases hcur : current = []
  · subst hcur
    simp only [payloadLen_nil] at h2
    subst h2
    simp only [chunkStep, List.isEmpty_nil, Bool.not_true, Bool.false_and,
      Bool.false_eq_true, if_false, if_true, List.nil_append, Nat.zero_add,
      Nat.add_zero]
    exact ⟨h1, by simp [payloadLen_singleton], hsing⟩
  · have hemp : current.isEmpty = false := by
      cases current with
      | nil => exact absurd rfl hcur
      | cons a l => rfl
    simp only [chunkStep, hemp, Bool.not_false, Bool.true_and, if_false,
      Bool.false_eq_true, decide_eq_true_eq]
    by_cases hlt : maxPayload < clen + (c.length + delim.length)
    · rw [if_pos hlt]
      refine ⟨?_, by simp [payloadLen_singleton], hsing⟩
      intro ch hch
      rcases List.mem_append.mp hch with hin | hin
      · exact h1 ch hin
      · rcases List.mem_singleton.mp hin with rfl
        exact h3
    · rw [if_neg (by simpa using hlt)]
      have hplen : payloadLen delim (current ++ [c]) =
          clen + (c.length + delim.length) := by
        rw [payloadLen_append delim current c hcur, h2]
      refine ⟨h1, ?_, Or.inl ?_⟩
      · rw [hplen]
      · rw [hplen]
        omega

theorem chunkFold_inv (delim : String) (maxPayload : Nat) :
    ∀ (cores : List String) (acc : List (List String) × List String × Nat),
      (∀ ch ∈ acc.1, goodChunk delim maxPayload ch) →
      acc.2.2 = payloadLen delim acc.2.1 →
      goodChunk delim maxPayload acc.2.1 →
      (∀ ch ∈ (cores.foldl (chunkStep delim maxPayload) acc).1,
        goodChunk delim maxPayload ch) ∧
      goodChunk delim maxPayload (cores.foldl (chunkStep delim maxPayload) acc).2.1 := by
  intro cores
  induction cores with
  | nil => intro acc h1 h2 h3; exact ⟨h1, h3⟩
  | cons c cs ih =>
    intro acc h1 h2 h3
    have hstep := chunkStep_inv delim maxPayload acc c h1 h2 h3
    simpa using ih (chunkStep delim maxPayload acc c) hstep.1 hstep.2.1 hstep.2.2

theorem chunkFold_flatten (delim : String) (maxPayload : Nat) :
    ∀ (cores : List String) (acc : List (List String) × List String × Nat),
      (cores.foldl (chunkStep delim maxPayload) acc).1.flatten ++
        (cores.foldl (chunkStep delim maxPayload) acc).2.1 =
      acc.1.flatten ++ acc.2.1 ++ cores := by
  intro cores
  induction cores with
  | nil => intro acc; simp
  | cons c cs ih =>
    intro acc
    obtain ⟨chunks, current, clen⟩ := acc
    have := ih (chunkStep delim maxPayload (chunks, current, clen) c)
    simp only [List.foldl_cons]
    rw [this]
    simp only [chunkStep]
    split <;> split <;>
      simp_all [List.flatten_append, List.append_assoc, List.isEmpty_iff]

/-- Concatenating the batches in order reproduces the original cores. -/
theorem chunkCores_flatten (delim : String) (maxPayload : Nat) (cores : List String) :
    (chunkCores delim maxPayload cores).flatten = cores := by
  have h := chunkFold_flatten delim maxPayload cores ([], [], 0)
  simp only [List.flatten_nil, List.nil_append] at h
  simp only [chunkCores]
  set r := cores.foldl (chunkStep delim maxPayload) ([], [], 0) with hr
  by_cases hemp : r.2.1.isEmpty
  · have : r.2.1 = [] := List.isEmpty_iff.mp hemp
    rw [if_pos hemp]
    rw [this, List.append_nil] at h
    exact h
  · rw [if_neg hemp]
    rw [List.flatten_append]
    simpa using h

/-- C4: for every ordered list of cores and every positive `maxPayloadChars`,
each batch produced by the greedy encoder has payload length (sum of core
lengths plus one delimiter length between consecutive cores) at most the
budget, except when it is a single core whose own length exceeds the budget;
an oversized core always forms a batch by itself. -/
theorem c4_batch_budget (delim : String) (maxPayload : Nat) (cores : List String)
    (hmax : 0 < maxPayload) :
    ∀ chunk ∈ chunkCores delim maxPayload cores,
      payloadLen delim chunk ≤ maxPayload ∨
      ∃ c, chunk = [c] ∧ maxPayload < c.length := by
  have h := chunkFold_inv delim maxPayload cores ([], [], 0)
    (by simp) (by simp [payloadLen_nil]) (Or.inl (by simp [payloadLen_nil]))
  intro chunk hch
  simp only [chunkCores] at hch
  by_cases hemp : (cores.foldl (chunkStep delim maxPayload) ([], [], 0)).2.1.isEmpty
  · rw [if_pos hemp] at hch
    exact h.1 chunk hch
  · rw [if_neg hemp] at hch
    rcases List.mem_append.mp hch with hin | hin
    · exact h.1 chunk hin
    · rcases List.mem_singleton.mp hin with rfl
      exact h.2

theorem c4_witness :
    0 < 5 ∧ ∀ chunk ∈ chunkCores "␞abc␞" 5 ["ab", "cd", "ef", "toolongcore", "x"],
      payloadLen "␞abc␞" chunk ≤ 5 ∨ ∃ c, chunk = [c] ∧ 5 < c.length :=
  ⟨by decide,
   c4_batch_budget "␞abc␞" 5 ["ab", "cd", "ef", "toolongcore", "x"] (by decide)⟩

theorem fallbackCores_length (stop : Nat → Bool)
    (provider : Nat → String → String → Option String) (lang : String) :
    ∀ (cs : List String) (s : St) (parts : List String) (s' : St),
      fallbackCores stop provider lang cs s = (.ok (some parts), s') →
      parts.length = cs.length := by
  intro cs
  induction cs with
  | nil =>
    intro s parts s' h
    simp only [fallbackCores, Prod.mk.injEq, Except.ok.injEq, Option.some.injEq] at h
    simp [← h.1]
  | cons c cs ih =>
    intro s parts s' h
    simp only [fallbackCores] at h
    split at h
    · simp at h
    · split at h
      · simp at h
      · rename_i t s2 htt
        split at h
        · rename_i parts0 s3 heq
          simp only [Prod.mk.injEq, Except.ok.injEq, Option.some.injEq] at h
          obtain ⟨h1, -⟩ := h
          subst h1
          simp [ih _ _ _ heq]
        · rename_i hne
          rcases hother : fallbackCores stop provider lang cs s2 with ⟨r3, s3⟩
          rw [hother] at h hne
          exact absurd h (hne parts s')

theorem processChunks_length (stop : Nat → Bool)
    (provider : Nat → String → String → Option String) (lang delim : String) :
    ∀ (chunks : List (List String)) (s : St) (parts : List String) (s' : St),
      processChunks stop provider lang delim chunks s = (.ok (some parts), s') →
      parts.length = (chunks.map List.length).sum := by
  intro chunks
  induction chunks with
  | nil =>
    intro s parts s' h
    simp only [processChunks, Prod.mk.injEq, Except.ok.injEq, Option.some.injEq] at h
    simp [← h.1]
  | cons ch rest ih =>
    intro s parts s' h
    simp only [processChunks] at h
    split at h
    · simp at h
    · split at h
      · simp at h
      · rename_i translated s2 htt
        split at h
        · rename_i ps s3 heq
          split at h
          · rename_i rs s4 hrec
            simp only [Prod.mk.injEq, Except.ok.injEq, Option.some.injEq] at h
            obtain ⟨h1, -⟩ := h
            subst h1
            have hps : ps.length = ch.length := by
              split at heq
              · exact fallbackCores_length stop provider lang ch s2 ps s3 heq
              · rename_i hlen
                simp only [Prod.mk.injEq, Except.ok.injEq, Option.some.injEq] at heq
                obtain ⟨hpseq, -⟩ := heq
                subst hpseq
                simpa using hlen
            simp [hps, ih _ _ _ hrec]
          · rename_i hne
            rcases hother : processChunks stop provider lang delim rest s3 with ⟨r4, s4⟩
            rw [hother] at h hne
            exact absurd h (hne parts s')
        · rename_i hne
          rcases hother :
              (if (splitDelim delim translated).length ≠ ch.length
               then fallbackCores stop provider lang ch s2
               else (.ok (some (splitDelim delim translated)), s2) :
                Except DrvErr (Option (List String)) × St) with ⟨r3, s3⟩
          rw [hother] at h hne
          exact absurd h (hne parts s')

/-- C3: whenever the batch pipeline (chunk loop, per-chunk fallback, extreme
fallback) completes without cancellation or a fatal error, it yields exactly
one translated part per surviving core, so the write-back of lines 536-538
assigns exactly one translated part per surviving slot, in extraction order. -/
theorem c3_write_back_one_to_one (stop : Nat → Bool)
    (provider : Nat → String → String → Option String)
    (lang delim : String) (maxPayload : Nat) (cores : List String)
    (s : St) (parts : List String) (s' : St)
    (h : producePartsForCores stop provider lang delim maxPayload cores s =
      (.ok (some parts), s')) :
    parts.length = cores.length := by
  simp only [producePartsForCores] at h
  split at h
  · rename_i outParts s1 hpc
    split at h
    · exact fallbackCores_length stop provider lang cores s1 parts s' h
    · rename_i hlen
      simp only [Prod.mk.injEq, Except.ok.injEq, Option.some.injEq] at h
      obtain ⟨h1, -⟩ := h
      subst h1
      simpa using hlen
  · rename_i hne
    rcases hother : processChunks stop provider lang delim
        (chunkCores delim maxPayload cores) s with ⟨r1, s1⟩
    rw [hother] at h hne
    exact absurd h (hne parts s')

theorem strMk_append (a b : List Char) :
    (⟨a⟩ : String) ++ (⟨b⟩ : String) = (⟨a ++ b⟩ : String) := rfl

theorem takeWhile_append_left {p : Char → Bool} :
    ∀ (a b : List Char), (∃ x ∈ a, p x = false) →
      (a ++ b).takeWhile p = a.takeWhile p := by
  intro a
  induction a with
  | nil => intro b h; simp at h
  | cons c a' ih =>
    intro b h
    by_cases hc : p c
    · simp only [List.cons_append, List.takeWhile_cons, hc, if_true]
      obtain ⟨x, hx, hpx⟩ := h
      rcases List.mem_cons.mp hx with rfl | hx'
      · rw [hc] at hpx; cases hpx
      · rw [ih b ⟨x, hx', hpx⟩]
    · simp [List.takeWhile_cons, hc]

theorem getLast?_eq_reverse_head? : ∀ l : List Char, l.getLast? = l.reverse.head? := by
  intro l
  rw [← List.reverse_reverse l]
  generalize l.reverse = m
  rw [List.reverse_reverse]
  induction m with
  | nil => rfl
  | cons c ms _ =>
    simp only [List.reverse_cons, List.head?_cons]
    rw [List.getLast?_append_cons]
    rfl

/-- C10: for strings with at least one non-whitespace character, `split_ws`
decomposes the string as `pre ++ core ++ suf` with `pre`/`suf` pure whitespace
and a non-empty `core` with no whitespace at either edge, so the write-back's
`prefix + translated + suffix` preserves the slot's surrounding whitespace;
for all-whitespace strings `pre` and `suf` are both the whole string and
`core` is empty (such slots are filtered out before write-back). -/
theorem c10_split_ws_reconstruction (s : String) :
    ((∃ c ∈ s.data, isWs c = false) →
      (split_ws s).1 ++ (split_ws s).2.1 ++ (split_ws s).2.2 = s ∧
      (split_ws s).2.1 ≠ "" ∧
      (∀ c ∈ (split_ws s).1.data, isWs c = true) ∧
      (∀ c ∈ (split_ws s).2.2.data, isWs c = true) ∧
      (∀ c, (split_ws s).2.1.data.head? = some c → isWs c = false) ∧
      (∀ c, (split_ws s).2.1.data.getLast? = some c → isWs c = false)) ∧
    ((∀ c ∈ s.data, isWs c = true) →
      (split_ws s).1 = s ∧ (split_ws s).2.1 = "" ∧ (split_ws s).2.2 = s) := by
  constructor
  · intro hex
    have hl : s.data.dropWhile isWs ≠ [] := by
      intro hnil
      obtain ⟨c, hc, hpc⟩ := hex
      have := List.dropWhile_eq_nil_iff.mp hnil c hc
      rw [hpc] at this; cases this
    obtain ⟨hc0, l0, hldef⟩ :
        ∃ c l0, s.data.dropWhile isWs = c :: l0 := by
      rcases hld : s.data.dropWhile isWs with - | ⟨c, l0⟩
      · exact absurd hld hl
      · exact ⟨c, l0, rfl⟩
    have hheadnot : isWs hc0 = false := dropWhile_head_not isWs s.data hc0 l0 hldef
    have hdecomp : s.data.takeWhile isWs ++ s.data.dropWhile isWs = s.data :=
      List.takeWhile_append_dropWhile isWs s.data
    -- abbreviations (definitional): pre, l (= stripped-left rest)
    generalize hpre : s.data.takeWhile isWs = pre at *
    generalize hlgen : s.data.dropWhile isWs = l at *
    -- l = rtrimL l ++ (trailing whitespace of l), by splitting l.reverse
    have hsplitrev :
        l.reverse.takeWhile isWs ++ l.reverse.dropWhile isWs = l.reverse :=
      List.takeWhile_append_dropWhile isWs l.reverse
    have hlsplit : rtrimL l ++ (l.reverse.takeWhile isWs).reverse = l := by
      have h := congrArg List.reverse hsplitrev
      rw [List.reverse_append, List.reverse_reverse] at h
      simpa [rtrimL] using h
    -- the trailing whitespace run of s is the trailing whitespace run of l
    have hrevagree : s.data.reverse.takeWhile isWs = l.reverse.takeWhile isWs := by
      have hrev : s.data.reverse = l.reverse ++ pre.reverse := by
        rw [← hdecomp, List.reverse_append]
      rw [hrev]
      apply takeWhile_append_left
      exact ⟨hc0, by simp [hldef], hheadnot⟩
    have hcorenn : rtrimL l ≠ [] := by
      intro hnil
      have h := congrArg List.reverse hnil
      rw [rtrimL, List.reverse_reverse] at h
      have hall := List.dropWhile_eq_nil_iff.mp h hc0 (by simp [hldef])
      rw [hheadnot] at hall; cases hall
    have hstrip : stripL s.data = rtrimL l := by
      rw [stripL, ltrimL, hlgen]
    refine ⟨?_, ?_, ?_, ?_, ?_, ?_⟩
    · show (⟨s.data.takeWhile isWs⟩ : String) ++ ⟨stripL s.data⟩ ++
        ⟨(s.data.reverse.takeWhile isWs).reverse⟩ = s
      rw [strMk_append, strMk_append]
      have hdata : s.data.takeWhile isWs ++ (stripL s.data ++
          (s.data.reverse.takeWhile isWs).reverse) = s.data := by
        rw [hpre, hstrip, hrevagree, hlsplit, hdecomp]
      rw [← List.append_assoc] at hdata
      rw [hdata]
    · show (⟨stripL s.data⟩ : String) ≠ ""
      intro hmk
      apply hcorenn
      have h := congrArg String.data hmk
      rw [← hstrip]
      exact h
    · intro c hc
      exact List.mem_takeWhile_imp hc
    · intro c hc
      have hc2 : c ∈ (s.data.reverse.takeWhile isWs).reverse := hc
      exact List.mem_takeWhile_imp (List.mem_reverse.mp hc2)
    · intro c hc
      have hc2 : (stripL s.data).head? = some c := hc
      rw [hstrip] at hc2
      have hhead : (rtrimL l).head? = l.head? := by
        conv_rhs => rw [← hlsplit]
        rw [List.head?_append_of_ne_nil _ hcorenn]
      rw [hhead, hldef] at hc2
      simp only [List.head?_cons, Option.some.injEq] at hc2
      rw [← hc2]
      exact hheadnot
    · intro c hc
      have hc2 : (stripL s.data).getLast? = some c := hc
      rw [hstrip, getLast?_eq_reverse_head?] at hc2
      have hrr : (rtrimL l).reverse = l.reverse.dropWhile isWs := by
        rw [rtrimL, List.reverse_reverse]
      rw [hrr] at hc2
      rcases hld2 : l.reverse.dropWhile isWs with - | ⟨d, m⟩
      · rw [hld2] at hc2; cases hc2
      · rw [hld2] at hc2
        simp only [List.head?_cons, Option.some.injEq] at hc2
        rw [← hc2]
        exact dropWhile_head_not isWs l.reverse d m hld2
  · intro hall
    have h1 : s.data.takeWhile isWs = s.data :=
      List.takeWhile_eq_self_iff.mpr hall
    have h2 : s.data.dropWhile isWs = [] :=
      List.dropWhile_eq_nil_iff.mpr hall
    have h3 : s.data.reverse.takeWhile isWs = s.data.reverse :=
      List.takeWhile_eq_self_iff.mpr (fun c hc => hall c (List.mem_reverse.mp hc))
    refine ⟨?_, ?_, ?_⟩
    · show (⟨s.data.takeWhile isWs⟩ : String) = s
      rw [h1]
    · show (⟨stripL s.data⟩ : String) = ""
      rw [stripL, ltrimL, h2]
      rfl
    · show (⟨(s.data.reverse.takeWhile isWs).reverse⟩ : String) = s
      rw [h3, List.reverse_reverse]

/-- C5: `looks_like_chess_line(text)` returns true exactly when the trimmed
text splits into at least 3 whitespace-separated tokens and at least 60% of
those tokens match the chess move, move-number, or game-result patterns
(each token classified after stripping surrounding `,`/`;`, as in the code);
in particular it accepts `"1. e4 e5 2. Nf3"` and rejects
`"The move 1. e4 is strong."` (2 matching tokens out of 6, below 0.60). -/
theorem c5_looks_like_chess_line_spec :
    (∀ t : String,
      looks_like_chess_line t = true ↔
        (3 ≤ (tokensL (pyStrip t).data).length ∧
         3 * (tokensL (pyStrip t).data).length ≤
           5 * ((tokensL (pyStrip t).data).filter isChessTok).length)) ∧
    looks_like_chess_line "1. e4 e5 2. Nf3" = true ∧
    looks_like_chess_line "The move 1. e4 is strong." = false := by
  refine ⟨?_, by decide, by decide⟩
  intro t
  simp only [looks_like_chess_line]
  by_cases hz : pyStrip t = ""
  · rw [if_pos (by simp [hz])]
    constructor
    · intro hfalse; cases hfalse
    · rintro ⟨h3, -⟩
      rw [hz] at h3
      simp [tokensL, tokensLF] at h3
  · rw [if_neg (by simp [hz])]
    by_cases hlen : (tokensL (pyStrip t).data).length < 3
    · rw [if_pos hlen]
      constructor
      · intro hfalse; cases hfalse
      · rintro ⟨h3, -⟩; omega
    · rw [if_neg hlen]
      simp only [decide_eq_true_eq]
      constructor
      · intro h; exact ⟨by omega, h⟩
      · rintro ⟨-, h⟩; exact h

theorem c10_witness :
    (∃ c ∈ ("  ciao \n" : String).data, isWs c = false) ∧
    (split_ws "  ciao \n").1 ++ (split_ws "  ciao \n").2.1 ++
      (split_ws "  ciao \n").2.2 = "  ciao \n" ∧
    (split_ws "  ciao \n").2.1 ≠ "" :=
  ⟨by decide,
   ((c10_split_ws_reconstruction "  ciao \n").1 (by decide)).1,
   ((c10_split_ws_reconstruction "  ciao \n").1 (by decide)).2.1⟩

/-- The initial process state: empty cache, no calls, signal not yet observed. -/
def stInit : St := ⟨0, [], [], false, 0, []⟩

/-- A provider that fails its first request and succeeds afterwards
(one transient timeout, then recovery). -/
def provFlaky : Nat → String → String → Option String :=
  fun n _ _ => if n = 0 then none else some "ciao"

/-- A provider that always fails (its responses are never consulted in the
runs it is used for). -/
def provNone : Nat → String → String → Option String := fun _ _ _ => none

/-- A provider that always answers, tagging the answer with the request index. -/
def provNum : Nat → String → String → Option String :=
  fun n _ _ => some ("T" ++ Nat.repr n)

/-- A provider that always answers with a fixed string. -/
def provCiao : Nat → String → String → Option String := fun _ _ _ => some "ciao"

/-- A cancellation signal that is set from the very beginning. -/
def stop0 : Nat → Bool := fun _ => true

/-- C9 counterexample: on the whitespace-only input `"   "` (trimmed form
empty), `translate_text` performs no network call but returns the *stripped*
string `""`, not the input unchanged — refuting the claim at this input. -/
theorem c9_counterexample :
    translate_text provNone (some "   ") "it" stInit = (.ok "", stInit) ∧
    ("" : String) ≠ "   " := by
  constructor
  · rfl
  · decide

/-- C9 (amended): for every input whose trimmed form is empty (`None`, empty,
or whitespace-only), `translate_text` returns the empty string (the trimmed
input) — not necessarily the input itself — leaving the state untouched and
performing no network call. -/
theorem c9_empty_input_amended (provider : Nat → String → String → Option String)
    (text : Option String) (lang : String) (s : St)
    (h : pyStrip (text.getD "") = "") :
    translate_text provider text lang s = (.ok "", s) := by
  simp [translate_text, h]

theorem c9_witness :
    pyStrip ((some " \t " : Option String).getD "") = "" ∧
    translate_text provNone (some " \t ") "it" stInit = (.ok "", stInit) :=
  ⟨by decide, c9_empty_input_amended provNone (some " \t ") "it" stInit (by decide)⟩

theorem assocLookup_append_some (b : List ((String × String) × String))
    (k : String × String) (v : String) :
    ∀ a, assocLookup a k = some v → assocLookup (a ++ b) k = some v := by
  intro a
  induction a with
  | nil => intro h; simp [assocLookup] at h
  | cons kv rest ih =>
    intro h
    simp only [assocLookup, List.cons_append] at h ⊢
    split at h
    · rename_i heq
      rw [if_pos heq]
      exact h
    · rename_i hne
      rw [if_neg hne]
      exact ih h

theorem assocLookup_append_new (k : String × String) (v : String) :
    ∀ a, assocLookup a k = none → assocLookup (a ++ [(k, v)]) k = some v := by
  intro a
  induction a with
  | nil => intro _; simp [assocLookup]
  | cons kv rest ih =>
    intro h
    simp only [assocLookup, List.cons_append] at h ⊢
    split at h
    · cases h
    · rename_i hne
      rw [if_neg hne]
      exact ih h

/-- C7 counterexample: with a provider that times out once and then recovers,
two calls of `translate_text` with the same `(text, language)` key issue TWO
external requests (the failed first attempt and the successful retry), not at
most one; both calls still return the same output. -/
theorem c7_counterexample :
    ((translate_text provFlaky (some "hi") "it"
        (translate_text provFlaky (some "hi") "it" stInit).2).2).callTicks.length = 2 ∧
    (translate_text provFlaky (some "hi") "it" stInit).1 = .ok "ciao" ∧
    (translate_text provFlaky (some "hi") "it"
        (translate_text provFlaky (some "hi") "it" stInit).2).1 = .ok "ciao" := by
  refine ⟨rfl, rfl, rfl⟩

/-- C7 (amended): when no provider attempt fails, two calls of `translate_text`
with the same `(text, language)` key issue at most one external request in
total and return identical outputs; and independently of provider behaviour
the cache is append-only — an entry, once stored, is never changed or removed
(with a failing provider, the first call may issue up to `retries` requests
before its first success, which is what refutes the original claim). -/
theorem c7_cache_amended (provider : Nat → String → String → Option String)
    (text : Option String) (lang : String) (s : St)
    (hp : ∀ n x l, (provider n x l).isSome = true) :
    ((translate_text provider text lang
        (translate_text provider text lang s).2).2).callTicks.length ≤
      s.callTicks.length + 1 ∧
    (translate_text provider text lang s).1 =
      (translate_text provider text lang
        (translate_text provider text lang s).2).1 ∧
    (∀ k v, assocLookup s.cache k = some v →
      assocLookup ((translate_text provider text lang
        (translate_text provider text lang s).2).2).cache k = some v) := by
  simp only [translate_text]
  by_cases ht : pyStrip (text.getD "") = ""
  · simp [ht]
  · rw [if_neg ht, if_neg ht]
    rcases hl : assocLookup s.cache (pyStrip (text.getD ""), lang) with - | v0
    · -- first call misses: one successful attempt, second call hits the cache
      obtain ⟨out, hout⟩ := Option.isSome_iff_exists.mp
        (hp s.callTicks.length (pyStrip (text.getD "")) lang)
      simp only [tryAttempts, netCall, hout, hl]
      have hhit : assocLookup
          (s.cache ++ [((pyStrip (text.getD ""), lang), out)])
          (pyStrip (text.getD ""), lang) = some out :=
        assocLookup_append_new _ _ s.cache hl
      simp only [hhit]
      refine ⟨by simp, trivial, ?_⟩
      intro k v hkv
      exact assocLookup_append_some _ k v s.cache hkv
    · -- first call hits: no state change, both calls return the cached value
      simp [hl]

theorem isLetterRe_isWs_false (c : Char) (h : isWs c = true) : isLetterRe c = false := by
  simp only [isWs, Bool.or_eq_true, beq_iff_eq] at h
  rcases h with ((((rfl | rfl) | rfl) | rfl) | rfl) | rfl <;> decide

theorem pyStrip_ne_empty_of_has_letters (s : String) (h : has_letters s = true) :
    pyStrip s ≠ "" := by
  intro hempty
  obtain ⟨c, hc, hlet⟩ := List.any_eq_true.mp h
  have hnil : stripL s.data = [] := congrArg String.data hempty
  -- stripL = [] forces every character of s to be whitespace
  have hlw : ∀ x ∈ s.data.dropWhile isWs, isWs x = true := by
    intro x hx
    have hrev : (s.data.dropWhile isWs).reverse.dropWhile isWs = [] := by
      have hcongr := congrArg List.reverse hnil
      rw [stripL, ltrimL, rtrimL, List.reverse_reverse] at hcongr
      exact hcongr
    have := List.dropWhile_eq_nil_iff.mp hrev x (List.mem_reverse.mpr hx)
    exact this
  have hall : ∀ x ∈ s.data, isWs x = true := by
    intro x hx
    have hdecomp := List.takeWhile_append_dropWhile isWs s.data
    rw [← hdecomp] at hx
    rcases List.mem_append.mp hx with hx1 | hx2
    · exact List.mem_takeWhile_imp hx1
    · exact hlw x hx2
  have := isLetterRe_isWs_false c (hall c hc)
  rw [hlet] at this
  cases this

theorem surviveSlot_isSome (t : String) :
    (surviveSlot t).isSome =
      (has_letters t && !looks_like_chess_line (pyStrip t)) := by
  simp only [surviveSlot]
  by_cases h0 : t = ""
  · subst h0
    simp [has_letters]
  · rw [if_neg h0]
    by_cases hl : has_letters t
    · have hcore : ¬(split_ws t).2.1 = "" := pyStrip_ne_empty_of_has_letters t hl
      simp only [hl, Bool.not_true, Bool.false_eq_true, if_false]
      rw [if_neg hcore]
      by_cases hch : looks_like_chess_line (pyStrip t)
      · have hch' : looks_like_chess_line (split_ws t).2.1 = true := hch
        rw [if_pos hch']
        simp [hl, hch]
      · have hch' : ¬looks_like_chess_line (split_ws t).2.1 = true := hch
        rw [if_neg hch']
        simp [hl, hch]
    · have hlf : has_letters t = false := by
        revert hl; cases has_letters t <;> simp
      simp [hlf]

theorem survivors_length_eq (l : List String) :
    ((l.map surviveSlot).filterMap id).length =
      (l.filter (fun t => has_letters t && !looks_like_chess_line (pyStrip t))).length := by
  induction l with
  | nil => rfl
  | cons t rest ih =>
    have hs := surviveSlot_isSome t
    cases hp : (has_letters t && !looks_like_chess_line (pyStrip t))
    · rw [hp] at hs
      have ho : surviveSlot t = none := by
        cases hos : surviveSlot t
        · rfl
        · rw [hos] at hs; cases hs
      simp only [List.map_cons, List.filterMap_cons, ho, List.filter_cons, hp,
        Bool.false_eq_true, if_false]
      exact ih
    · rw [hp] at hs
      obtain ⟨v, hv⟩ := Option.isSome_iff_exists.mp hs
      simp only [List.map_cons, List.filterMap_cons, hv, id, List.filter_cons, hp,
        if_true, List.length_cons]
      exact congrArg (· + 1) ih

/-- C6 counterexample: a block whose only text is the chess line
`"1. e4 e5 2. Nf3"` has one writable position with letters and a non-empty
trimmed core, but zero slots survive extraction — the whole-chess-line filter
(line 478) also discards slots, refuting the claimed equality. -/
theorem c6_counterexample :
    ¬ ((((collect_text_slots_in_block
          (.mk (some "p") [] (some "1. e4 e5 2. Nf3") none [])).map
            surviveSlot).filterMap id).length =
       ((collect_text_slots_in_block
          (.mk (some "p") [] (some "1. e4 e5 2. Nf3") none [])).filter
            (fun t => has_letters t && !(pyStrip t == ""))).length) := by
  decide

/-- C6 (amended): for every block, the number of surviving text slots equals
the number of writable text positions (element leading text or child trailing
text outside the non-translatable tag set) whose text contains at least one
alphabetic letter AND whose trimmed core is not classified as a whole
chess-notation line; slots with only whitespace or only non-letter characters
are never produced (a text with a letter automatically has a non-empty core). -/
theorem c6_slot_count_amended (e : Elem) :
    (((collect_text_slots_in_block e).map surviveSlot).filterMap id).length =
      ((collect_text_slots_in_block e).filter
        (fun t => has_letters t && !looks_like_chess_line (pyStrip t))).length :=
  survivors_length_eq (collect_text_slots_in_block e)

@[simp] theorem Elem.tag_mk (t : Option String) (a : List (String × String))
    (tx tl : Option String) (ch : List Elem) : (Elem.mk t a tx tl ch).tag = t := rfl

@[simp] theorem Elem.tail_mk (t : Option String) (a : List (String × String))
    (tx tl : Option String) (ch : List Elem) : (Elem.mk t a tx tl ch).tail = tl := rfl

@[simp] theorem withTail_tag (e : Elem) (x : Option String) :
    (withTail e x).tag = e.tag := by cases e; rfl

@[simp] theorem withTail_tail (e : Elem) (x : Option String) :
    (withTail e x).tail = x := by cases e; rfl

theorem withTail_self (e : Elem) : withTail e e.tail = e := by cases e; rfl

theorem withTail_withTail (e : Elem) (x y : Option String) :
    withTail (withTail e x) y = withTail e y := by cases e; rfl

theorem maskText_applyText (tx : Option String) (news : List (Option String)) :
    maskText (applyText tx news).1 = maskText tx := by
  cases tx with
  | none => rfl
  | some s =>
    cases news with
    | nil => rfl
    | cons n rest => cases n <;> rfl

theorem applySlots_tag (e : Elem) (news : List (Option String)) :
    ((applySlots e news).1).tag = e.tag := by
  cases e with
  | mk t a tx tl ch =>
    simp only [applySlots]
    split <;> rfl

theorem applySlots_tail (e : Elem) (news : List (Option String)) :
    ((applySlots e news).1).tail = e.tail := by
  cases e with
  | mk t a tx tl ch =>
    simp only [applySlots]
    split <;> rfl

theorem maskSlots_tail (e : Elem) : (maskSlots e).tail = e.tail := by
  cases e with
  | mk t a tx tl ch =>
    simp only [maskSlots]
    split <;> rfl

theorem maskSlots_withTail (e : Elem) (x : Option String) :
    maskSlots (withTail e x) = withTail (maskSlots e) x := by
  cases e with
  | mk t a tx tl ch =>
    simp only [withTail, maskSlots]
    split <;> rfl

mutual

/-- The write-back changes nothing but the contents of slot positions: under
`maskSlots` (which erases exactly those contents) the tree is unchanged. -/
theorem maskSlots_applySlots :
    ∀ (e : Elem) (news : List (Option String)),
      maskSlots (applySlots e news).1 = maskSlots e
  | .mk t a tx tl ch, news => by
    by_cases hok : okTag t
    · simp only [applySlots, hok, if_true, maskSlots]
      rw [maskText_applyText tx news,
        maskSlots_applySlotsL ch (applyText tx news).2]
    · simp only [applySlots, hok, Bool.false_eq_true, if_false]

theorem maskSlots_applySlotsL :
    ∀ (es : List Elem) (news : List (Option String)),
      maskSlotsL (applySlotsL es news).1 = maskSlotsL es
  | [], _ => rfl
  | c :: cs, news => by
    simp only [applySlotsL, maskSlotsL]
    by_cases hok : okTag c.tag
    · simp only [withTail_tag, applySlots_tag, hok, if_true, withTail_tail]
      rw [maskSlots_withTail, maskSlots_applySlots c news, withTail_withTail]
      have hmt : maskText (applyText c.tail (applySlots c news).2).1 =
          maskText c.tail := maskText_applyText c.tail (applySlots c news).2
      rw [hmt, maskSlots_applySlotsL cs _]
    · simp only [withTail_tag, applySlots_tag, hok, Bool.false_eq_true, if_false]
      rw [maskSlots_withTail, maskSlots_applySlots c news]
      rw [show (withTail (maskSlots c) c.tail) = maskSlots c by
        rw [← maskSlots_tail c]; exact withTail_self (maskSlots c)]
      rw [maskSlots_applySlotsL cs _]

end

@[simp] theorem Elem.children_mk (t : Option String) (a : List (String × String))
    (tx tl : Option String) (ch : List Elem) :
    (Elem.mk t a tx tl ch).children = ch := rfl

theorem shapeOf_withTail (e : Elem) (x : Option String) :
    shapeOf (withTail e x) = shapeOf e := by cases e; rfl

mutual

theorem shapeOf_maskSlots : ∀ e : Elem, shapeOf (maskSlots e) = shapeOf e
  | .mk t a tx tl ch => by
    by_cases hok : okTag t
    · simp only [maskSlots, hok, if_true, shapeOf]
      rw [shapesOf_maskSlotsL ch]
    · simp only [maskSlots, hok, Bool.false_eq_true, if_false]

theorem shapesOf_maskSlotsL : ∀ es : List Elem, shapesOf (maskSlotsL es) = shapesOf es
  | [] => rfl
  | c :: cs => by
    simp only [maskSlotsL, shapesOf]
    by_cases hok : okTag c.tag
    · simp only [hok, if_true]
      rw [shapeOf_withTail, shapeOf_maskSlots c, shapesOf_maskSlotsL cs]
    · simp only [hok, Bool.false_eq_true, if_false]
      rw [shapeOf_maskSlots c, shapesOf_maskSlotsL cs]

end

theorem shapeOf_eq_of_maskSlots_eq (e e' : Elem)
    (h : maskSlots e' = maskSlots e) : shapeOf e' = shapeOf e := by
  rw [← shapeOf_maskSlots e', h, shapeOf_maskSlots e]

theorem shapesOf_set :
    ∀ (ch : List Elem) (i : Nat) (x c : Elem),
      ch.get? i = some c → shapeOf x = shapeOf c →
      shapesOf (ch.set i x) = shapesOf ch := by
  intro ch
  induction ch with
  | nil => intro i x c h _; simp at h
  | cons d ds ih =>
    intro i x c h hx
    cases i with
    | zero =>
      simp only [List.get?_cons_zero, Option.some.injEq] at h
      subst h
      simp only [List.set_cons_zero, shapesOf, hx]
    | succ j =>
      simp only [List.get?_cons_succ] at h
      simp only [List.set_cons_succ, shapesOf]
      rw [ih j x c h hx]

theorem setAt_shape :
    ∀ (p : Path) (doc b' c : Elem),
      getAt doc p = some c → shapeOf b' = shapeOf c →
      shapeOf (setAt doc p b') = shapeOf doc := by
  intro p
  induction p with
  | nil =>
    intro doc b' c h hx
    simp only [getAt, Option.some.injEq] at h
    subst h
    simpa [setAt] using hx
  | cons i q ih =>
    intro doc b' c h hx
    cases doc with
    | mk t a tx tl ch =>
      simp only [getAt, Elem.children_mk] at h
      rcases hg : ch.get? i with - | ci
      · rw [hg] at h; cases h
      · rw [hg] at h
        simp only [setAt, hg, shapeOf]
        rw [shapesOf_set ch i (setAt ci q b') ci hg (ih ci b' c h hx)]

/-- A completed block translation changes nothing but slot contents. -/
theorem translate_one_block_maskSlots (stop : Nat → Bool)
    (provider : Nat → String → String → Option String)
    (block : Elem) (lang : String) (maxPayload : Nat) (hex : String) (s : St)
    (res : String) (blk' : Elem) (s' : St)
    (h : translate_one_block_preserve_markup stop provider block lang maxPayload hex s =
      (.ok (res, blk'), s')) :
    maskSlots blk' = maskSlots block := by
  simp only [translate_one_block_preserve_markup] at h
  split at h
  · simp only [Prod.mk.injEq, Except.ok.injEq] at h
    rw [← h.1.2]
  · split at h
    · simp only [Prod.mk.injEq, Except.ok.injEq] at h
      rw [← h.1.2]
    · split at h
      · rename_i parts s2 hpp
        simp only [Prod.mk.injEq, Except.ok.injEq] at h
        rw [← h.1.2]
        exact maskSlots_applySlots block _
      · simp only [Prod.mk.injEq, Except.ok.injEq] at h
        rw [← h.1.2]
      · simp at h

theorem driverGo_shape (stop : Nat → Bool)
    (provider : Nat → String → String → Option String)
    (lang : String) (maxPayload : Nat) (hexs : Nat → String) (total : Nat) :
    ∀ (paths : List Path) (doc : Elem) (done : Nat) (s : St) (doc' : Elem) (s' : St),
      driverGo stop provider lang maxPayload hexs total paths doc done s =
        (.ok doc', s') →
      shapeOf doc' = shapeOf doc := by
  intro paths
  induction paths with
  | nil =>
    intro doc done s doc' s' h
    simp only [driverGo, Prod.mk.injEq, Except.ok.injEq] at h
    rw [← h.1]
  | cons p rest ih =>
    intro doc done s doc' s' h
    simp only [driverGo] at h
    split at h
    · simp at h
    · split at h
      · exact ih doc done _ doc' s' h
      · rename_i blk hget
        split at h
        · exact ih doc (done + 1) _ doc' s' h
        · split at h
          · simp at h
          · rename_i r s2 hblk
            split at h
            · simp at h
            · have h1 : shapeOf (setAt doc p r.2) = shapeOf doc :=
                setAt_shape p doc r.2 blk hget
                  (shapeOf_eq_of_maskSlots_eq blk r.2
                    (translate_one_block_maskSlots stop provider blk lang
                      maxPayload (hexs done) _ r.1 r.2 s2
                      (by rw [hblk])))
              rw [← h1]
              exact ih (setAt doc p r.2) (done + 1) _ doc' s' h

/-- C2: for every input document and block selector, a successful run of
`translate_full_html_blocks` returns a document with identical element
structure and attributes (equal `shapeOf`, which erases exactly the text
content), the serialised output string begins with `<!doctype html>`, and —
at the block layer, where slots are defined — only the contents of extracted
slot positions are replaced (`maskSlots` equality). -/
theorem c2_structure_preserved (stop : Nat → Bool)
    (provider : Nat → String → String → Option String)
    (doc : Elem) (lang : String) (selTags : List String) (maxPayload : Nat)
    (hexs : Nat → String) (s : St) (out : String) (doc' : Elem) (s' : St)
    (h : translate_full_html_blocks stop provider doc lang selTags maxPayload hexs s =
      (.ok (out, doc'), s')) :
    shapeOf doc' = shapeOf doc ∧
    (∃ rest, out = "<!doctype html>" ++ rest) ∧
    (∀ (blk : Elem) (lang' : String) (mp : Nat) (hx : String) (s₁ : St)
        (res : String) (blk' : Elem) (s₂ : St),
      translate_one_block_preserve_markup stop provider blk lang' mp hx s₁ =
        (.ok (res, blk'), s₂) →
      maskSlots blk' = maskSlots blk) := by
  simp only [translate_full_html_blocks] at h
  split at h
  · rename_i doc1 s1 hgo
    simp only [Prod.mk.injEq, Except.ok.injEq] at h
    obtain ⟨⟨hout, hdoc⟩, -⟩ := h
    subst hdoc
    refine ⟨driverGo_shape stop provider lang maxPayload hexs _ _ doc 0 s doc1 s1 hgo,
      ⟨"\n" ++ tostringHtml doc1, by rw [← hout]; rfl⟩, ?_⟩
    intro blk lang' mp hx s₁ res blk' s₂ hb
    exact translate_one_block_maskSlots stop provider blk lang' mp hx s₁ res blk' s₂ hb
  · simp at h

/-- A document whose single paragraph contains no letters (nothing to
translate, so a run completes without any network call). -/
def docW : Elem :=
  .mk (some "html") [] none none
    [.mk (some "body") [] none none [.mk (some "p") [] (some "123") none []]]

theorem c2_witness :
    shapeOf docW = shapeOf docW ∧
    (∃ rest, "<!doctype html>\n" ++ tostringHtml docW = "<!doctype html>" ++ rest) ∧
    (∀ (blk : Elem) (lang' : String) (mp : Nat) (hx : String) (s₁ : St)
        (res : String) (blk' : Elem) (s₂ : St),
      translate_one_block_preserve_markup (fun _ => false) provNone blk lang' mp hx s₁ =
        (.ok (res, blk'), s₂) →
      maskSlots blk' = maskSlots blk) :=
  c2_structure_preserved (fun _ => false) provNone docW "it" ["p"] 3500
    (fun _ => "abc") stInit ("<!doctype html>\n" ++ tostringHtml docW) docW
    (translate_full_html_blocks (fun _ => false) provNone docW "it" ["p"] 3500
      (fun _ => "abc") stInit).2 rfl

section Cancellation

variable (stop : Nat → Bool) (provider : Nat → String → String → Option String)

theorem obs_tryAttempts (t lang : String) :
    ∀ (n : Nat) (s : St), s.observed = false →
      (tryAttempts provider t lang n s).2.observed = false ∧
      (tryAttempts provider t lang n s).2.callsAfterObs = s.callsAfterObs := by
  intro n
  induction n with
  | zero => intro s h; exact ⟨h, rfl⟩
  | succ m ih =>
    intro s h
    rcases hnc : netCall provider t lang s with ⟨r1, s1⟩
    have hs1 : s1 = (netCall provider t lang s).2 := by rw [hnc]
    have hs1obs : s1.observed = false := by rw [hs1]; simpa [netCall] using h
    have hs1calls : s1.callsAfterObs = s.callsAfterObs := by
      rw [hs1]; simp [netCall, h]
    rcases r1 with - | out
    · have hred : tryAttempts provider t lang (m + 1) s =
          if m = 0 then (.error .provider, s1) else tryAttempts provider t lang m s1 := by
        simp only [tryAttempts]
        rw [hnc]
      rw [hred]
      by_cases hm : m = 0
      · rw [if_pos hm]
        exact ⟨hs1obs, hs1calls⟩
      · rw [if_neg hm]
        obtain ⟨h1, h2⟩ := ih s1 hs1obs
        exact ⟨h1, by rw [h2, hs1calls]⟩
    · have hred : tryAttempts provider t lang (m + 1) s =
          (.ok out, { s1 with cache := s1.cache ++ [((t, lang), out)] }) := by
        simp only [tryAttempts]
        rw [hnc]
      rw [hred]
      exact ⟨hs1obs, hs1calls⟩

theorem obs_translate_text (text : Option String) (lang : String) (s : St)
    (h : s.observed = false) :
    (translate_text provider text lang s).2.observed = false ∧
    (translate_text provider text lang s).2.callsAfterObs = s.callsAfterObs := by
  simp only [translate_text]
  split
  · exact ⟨h, rfl⟩
  · split
    · exact ⟨h, rfl⟩
    · exact obs_tryAttempts provider _ lang 4 s h

theorem obs_fallbackCores (lang : String) :
    ∀ (cs : List String) (s : St), s.observed = false →
      (fallbackCores stop provider lang cs s).2.callsAfterObs = s.callsAfterObs ∧
      ((fallbackCores stop provider lang cs s).2.observed = true ↔
        (fallbackCores stop provider lang cs s).1 = .ok none) := by
  intro cs
  induction cs with
  | nil =>
    intro s h
    exact ⟨rfl, by simp [fallbackCores, h]⟩
  | cons c cs ih =>
    intro s h
    rcases hcs : checkStop stop s with ⟨b, s1⟩
    have hcs' := hcs
    simp only [checkStop, Prod.mk.injEq] at hcs'
    obtain ⟨hbv, hs1v⟩ := hcs'
    have hs1obs : s1.observed = (s.observed || stop s.tick) := by rw [← hs1v]
    have hs1calls : s1.callsAfterObs = s.callsAfterObs := by rw [← hs1v]
    cases hb2 : stop s.tick with
    | true =>
      have hred : fallbackCores stop provider lang (c :: cs) s = (.ok none, s1) := by
        simp only [fallbackCores]
        rw [hcs, ← hbv, hb2]
      rw [hred]
      refine ⟨hs1calls, ?_⟩
      simp [hs1obs, hb2]
    | false =>
      have hs1o : s1.observed = false := by simp [hs1obs, h, hb2]
      rcases htt : translate_text provider (some c) lang s1 with ⟨r2, s2⟩
      obtain ⟨htt1, htt2⟩ := obs_translate_text provider (some c) lang s1 hs1o
      rw [htt] at htt1 htt2
      simp only at htt1 htt2
      have hstep : fallbackCores stop provider lang (c :: cs) s =
          (match translate_text provider (some c) lang s1 with
           | (.error e, s2) => (.error e, s2)
           | (.ok t, s2) =>
             match fallbackCores stop provider lang cs s2 with
             | (.ok (some parts), s3) => (.ok (some (t :: parts)), s3)
             | other => other) := by
        simp only [fallbackCores]
        rw [hcs, ← hbv, hb2]
      cases r2 with
      | error e =>
        have hiota : (match ((Except.error e : Except DrvErr String), s2) with
            | (.error e, s2) => ((Except.error e : Except DrvErr (Option (List String))), s2)
            | (.ok t, s2) =>
              match fallbackCores stop provider lang cs s2 with
              | (.ok (some parts), s3) => (.ok (some (t :: parts)), s3)
              | other => other) =
            ((Except.error e : Except DrvErr (Option (List String))), s2) := rfl
        rw [hstep, htt, hiota]
        refine ⟨by rw [htt2, hs1calls], ?_⟩
        rw [htt1]
        simp
      | ok t =>
        obtain ⟨hrec1, hrec2⟩ := ih s2 htt1
        rcases hfb : fallbackCores stop provider lang cs s2 with ⟨r3, s3⟩
        rw [hfb] at hrec1 hrec2
        simp only at hrec1 hrec2
        have hcalls3 : s3.callsAfterObs = s.callsAfterObs := by
          rw [hrec1, htt2, hs1calls]
        have hiota : (match ((Except.ok t : Except DrvErr String), s2) with
            | (.error e, s2) => ((Except.error e : Except DrvErr (Option (List String))), s2)
            | (.ok t, s2) =>
              match fallbackCores stop provider lang cs s2 with
              | (.ok (some parts), s3) => (.ok (some (t :: parts)), s3)
              | other => other) =
            (match fallbackCores stop provider lang cs s2 with
             | (.ok (some parts), s3) => (.ok (some (t :: parts)), s3)
             | other => other) := rfl
        rw [hstep, htt, hiota, hfb]
        rcases r3 with e | o
        · exact ⟨hcalls3, hrec2⟩
        · rcases o with - | parts
          · exact ⟨hcalls3, hrec2⟩
          · refine ⟨hcalls3, ?_⟩
            constructor
            · intro ho
              have := hrec2.mp ho
              cases this
            · intro he
              simp at he

theorem obs_processChunks (lang delim : String) :
    ∀ (chunks : List (List String)) (s : St), s.observed = false →
      (processChunks stop provider lang delim chunks s).2.callsAfterObs =
        s.callsAfterObs ∧
      ((processChunks stop provider lang delim chunks s).2.observed = true ↔
        (processChunks stop provider lang delim chunks s).1 = .ok none) := by
  intro chunks
  induction chunks with
  | nil =>
    intro s h
    exact ⟨rfl, by simp [processChunks, h]⟩
  | cons ch rest ih =>
    intro s h
    rcases hcs : checkStop stop s with ⟨b, s1⟩
    have hcs' := hcs
    simp only [checkStop, Prod.mk.injEq] at hcs'
    obtain ⟨hbv, hs1v⟩ := hcs'
    have hs1obs : s1.observed = (s.observed || stop s.tick) := by rw [← hs1v]
    have hs1calls : s1.callsAfterObs = s.callsAfterObs := by rw [← hs1v]
    cases hb2 : stop s.tick with
    | true =>
      have hred : processChunks stop provider lang delim (ch :: rest) s =
          (.ok none, s1) := by
        simp only [processChunks]
        rw [hcs, ← hbv, hb2]
      rw [hred]
      refine ⟨hs1calls, ?_⟩
      simp [hs1obs, hb2]
    | false =>
      have hs1o : s1.observed = false := by simp [hs1obs, h, hb2]
      rcases htt : translate_text provider (some (joinDelim delim ch)) lang s1 with ⟨r2, s2⟩
      obtain ⟨htt1, htt2⟩ :=
        obs_translate_text provider (some (joinDelim delim ch)) lang s1 hs1o
      rw [htt] at htt1 htt2
      simp only at htt1 htt2
      have hstep : processChunks stop provider lang delim (ch :: rest) s =
          (match translate_text provider (some (joinDelim delim ch)) lang s1 with
           | (.error e, s2) => (.error e, s2)
           | (.ok translated, s2) =>
             match (if (splitDelim delim translated).length ≠ ch.length
                    then fallbackCores stop provider lang ch s2
                    else (.ok (some (splitDelim delim translated)), s2) :
                     Except DrvErr (Option (List String)) × St) with
             | (.ok (some ps), s3) =>
               match processChunks stop provider lang delim rest s3 with
               | (.ok (some rs), s4) => (.ok (some (ps ++ rs)), s4)
               | other => other
             | other => other) := by
        simp only [processChunks]
        rw [hcs, ← hbv, hb2]
      cases r2 with
      | error e =>
        have hiota : (match ((Except.error e : Except DrvErr String), s2) with
            | (.error e, s2) => ((Except.error e : Except DrvErr (Option (List String))), s2)
            | (.ok translated, s2) =>
              match (if (splitDelim delim translated).length ≠ ch.length
                     then fallbackCores stop provider lang ch s2
                     else (.ok (some (splitDelim delim translated)), s2) :
                      Except DrvErr (Option (List String)) × St) with
              | (.ok (some ps), s3) =>
                match processChunks stop provider lang delim rest s3 with
                | (.ok (some rs), s4) => (.ok (some (ps ++ rs)), s4)
                | other => other
              | other => other) =
            ((Except.error e : Except DrvErr (Option (List String))), s2) := rfl
        rw [hstep, htt, hiota]
        refine ⟨by rw [htt2, hs1calls], ?_⟩
        rw [htt1]
        simp
      | ok translated =>
        rcases hif : (if (splitDelim delim translated).length ≠ ch.length
                      then fallbackCores stop provider lang ch s2
                      else (.ok (some (splitDelim delim translated)), s2) :
                       Except DrvErr (Option (List String)) × St) with ⟨r3, s3⟩
        have hifp : s3.callsAfterObs = s2.callsAfterObs ∧
            (s3.observed = true ↔ r3 = .ok none) := by
          by_cases hcond : (splitDelim delim translated).length ≠ ch.length
          · rw [if_pos hcond] at hif
            obtain ⟨hf1, hf2⟩ := obs_fallbackCores stop provider lang ch s2 htt1
            rw [hif] at hf1 hf2
            exact ⟨hf1, hf2⟩
          · rw [if_neg hcond] at hif
            simp only [Prod.mk.injEq] at hif
            obtain ⟨hr3, hs3⟩ := hif
            subst hs3
            refine ⟨rfl, ?_⟩
            rw [htt1, ← hr3]
            simp
        have hiota : (match ((Except.ok translated : Except DrvErr String), s2) with
            | (.error e, s2) => ((Except.error e : Except DrvErr (Option (List String))), s2)
            | (.ok translated, s2) =>
              match (if (splitDelim delim translated).length ≠ ch.length
                     then fallbackCores stop provider lang ch s2
                     else (.ok (some (splitDelim delim translated)), s2) :
                      Except DrvErr (Option (List String)) × St) with
              | (.ok (some ps), s3) =>
                match processChunks stop provider lang delim rest s3 with
                | (.ok (some rs), s4) => (.ok (some (ps ++ rs)), s4)
                | other => other
              | other => other) =
            (match (if (splitDelim delim translated).length ≠ ch.length
                    then fallbackCores stop provider lang ch s2
                    else (.ok (some (splitDelim delim translated)), s2) :
                     Except DrvErr (Option (List String)) × St) with
             | (.ok (some ps), s3) =>
               match processChunks stop provider lang delim rest s3 with
               | (.ok (some rs), s4) => (.ok (some (ps ++ rs)), s4)
               | other => other
             | other => other) := rfl
        rw [hstep, htt, hiota, hif]
        rcases r3 with e | o
        · have hiotaE :
              (match ((Except.error e : Except DrvErr (Option (List String))), s3) with
               | (.ok (some ps), s3) =>
                 match processChunks stop provider lang delim rest s3 with
                 | (.ok (some rs), s4) =>
                   ((.ok (some (ps ++ rs)) : Except DrvErr (Option (List String))), s4)
                 | other => other
               | other => other) =
              ((Except.error e : Except DrvErr (Option (List String))), s3) := rfl
          rw [hiotaE]
          refine ⟨by rw [hifp.1, htt2, hs1calls], ?_⟩
          have ho3 : s3.observed = false := by
            rcases hoo : s3.observed with - | -
            · rfl
            · have := hifp.2.mp hoo
              cases this
          rw [ho3]
          simp
        · rcases o with - | ps
          · have hiotaN :
                (match ((Except.ok none : Except DrvErr (Option (List String))), s3) with
                 | (.ok (some ps), s3) =>
                   match processChunks stop provider lang delim rest s3 with
                   | (.ok (some rs), s4) =>
                     ((.ok (some (ps ++ rs)) : Except DrvErr (Option (List String))), s4)
                   | other => other
                 | other => other) =
                ((Except.ok none : Except DrvErr (Option (List String))), s3) := rfl
            rw [hiotaN]
            refine ⟨by rw [hifp.1, htt2, hs1calls], ?_⟩
            have ho3 : s3.observed = true := hifp.2.mpr rfl
            rw [ho3]
            simp
          · have hiotaS :
                (match ((Except.ok (some ps) : Except DrvErr (Option (List String))), s3) with
                 | (.ok (some ps), s3) =>
                   match processChunks stop provider lang delim rest s3 with
                   | (.ok (some rs), s4) =>
                     ((.ok (some (ps ++ rs)) : Except DrvErr (Option (List String))), s4)
                   | other => other
                 | other => other) =
                (match processChunks stop provider lang delim rest s3 with
                 | (.ok (some rs), s4) =>
                   ((.ok (some (ps ++ rs)) : Except DrvErr (Option (List String))), s4)
                 | other => other) := rfl
            rw [hiotaS]
            have ho3 : s3.observed = false := by
              rcases hoo : s3.observed with - | -
              · rfl
              · have := hifp.2.mp hoo
                cases this
            obtain ⟨hrec1, hrec2⟩ := ih s3 ho3
            rcases hpc : processChunks stop provider lang delim rest s3 with ⟨r4, s4⟩
            rw [hpc] at hrec1 hrec2
            simp only at hrec1 hrec2
            have hcalls4 : s4.callsAfterObs = s.callsAfterObs := by
              rw [hrec1, hifp.1, htt2, hs1calls]
            rcases r4 with e | o4
            · exact ⟨hcalls4, hrec2⟩
            · rcases o4 with - | rs
              · exact ⟨hcalls4, hrec2⟩
              · refine ⟨hcalls4, ?_⟩
                constructor
                · intro ho
                  have := hrec2.mp ho
                  cases this
                · intro he
                  simp at he

theorem obs_producePartsForCores (lang delim : String) (maxPayload : Nat)
    (cores : List String) (s : St) (h : s.observed = false) :
    (producePartsForCores stop provider lang delim maxPayload cores s).2.callsAfterObs =
      s.callsAfterObs ∧
    ((producePartsForCores stop provider lang delim maxPayload cores s).2.observed = true ↔
      (producePartsForCores stop provider lang delim maxPayload cores s).1 = .ok none) := by
  obtain ⟨hp1, hp2⟩ :=
    obs_processChunks stop provider lang delim (chunkCores delim maxPayload cores) s h
  rcases hpc : processChunks stop provider lang delim (chunkCores delim maxPayload cores) s
    with ⟨r1, s1⟩
  rw [hpc] at hp1 hp2
  simp only at hp1 hp2
  have hstep : producePartsForCores stop provider lang delim maxPayload cores s =
      (match (r1, s1) with
       | (.ok (some outParts), s1) =>
         if outParts.length ≠ cores.length then fallbackCores stop provider lang cores s1
         else ((.ok (some outParts) : Except DrvErr (Option (List String))), s1)
       | other => other) := by
    simp only [producePartsForCores]
    rw [hpc]
  rcases r1 with e | o
  · rw [hstep]
    exact ⟨hp1, hp2⟩
  · rcases o with - | outParts
    · rw [hstep]
      exact ⟨hp1, hp2⟩
    · have ho1 : s1.observed = false := by
        rcases hoo : s1.observed with - | -
        · rfl
        · have := hp2.mp hoo
          cases this
      have hstep2 : producePartsForCores stop provider lang delim maxPayload cores s =
          (if outParts.length ≠ cores.length
           then fallbackCores stop provider lang cores s1
           else ((.ok (some outParts) : Except DrvErr (Option (List String))), s1)) := by
        rw [hstep]
      by_cases hcond : outParts.length ≠ cores.length
      · rw [hstep2, if_pos hcond]
        obtain ⟨hf1, hf2⟩ := obs_fallbackCores stop provider lang cores s1 ho1
        exact ⟨by rw [hf1, hp1], hf2⟩
      · rw [hstep2, if_neg hcond]
        refine ⟨hp1, ?_⟩
        rw [ho1]
        simp

theorem obs_translate_one_block (block : Elem) (lang : String) (maxPayload : Nat)
    (hex : String) (s : St) (h : s.observed = false) :
    (translate_one_block_preserve_markup stop provider block lang maxPayload hex s).2.callsAfterObs =
      s.callsAfterObs ∧
    ((translate_one_block_preserve_markup stop provider block lang maxPayload hex s).2.observed = true ↔
      ∃ b', (translate_one_block_preserve_markup stop provider block lang maxPayload hex s).1 =
        .ok ("CANCEL", b')) := by
  rcases hcs : checkStop stop s with ⟨b, s1⟩
  have hcs' := hcs
  simp only [checkStop, Prod.mk.injEq] at hcs'
  obtain ⟨hbv, hs1v⟩ := hcs'
  have hs1obs : s1.observed = (s.observed || stop s.tick) := by rw [← hs1v]
  have hs1calls : s1.callsAfterObs = s.callsAfterObs := by rw [← hs1v]
  cases hb2 : stop s.tick with
  | true =>
    have hred : translate_one_block_preserve_markup stop provider block lang maxPayload hex s =
        (.ok ("CANCEL", block), s1) := by
      simp only [translate_one_block_preserve_markup]
      rw [hcs, ← hbv, hb2]
    rw [hred]
    refine ⟨hs1calls, ?_⟩
    constructor
    · intro _
      exact ⟨block, rfl⟩
    · intro _
      simp [hs1obs, hb2]
  | false =>
    have hs1o : s1.observed = false := by simp [hs1obs, h, hb2]
    rw [hb2, Bool.or_false] at hs1v
    by_cases hemp :
        (((collect_text_slots_in_block block).map surviveSlot).filterMap id).isEmpty
    · have hred : translate_one_block_preserve_markup stop provider block lang maxPayload hex s =
          (.ok ("OK", block), s1) := by
        simp only [translate_one_block_preserve_markup, checkStop, hb2, Bool.or_false,
          hemp, hs1v, eq_self_iff_true, if_true]
      rw [hred]
      refine ⟨hs1calls, ?_⟩
      constructor
      · intro ho
        rw [hs1o] at ho
        cases ho
      · rintro ⟨b', hb'⟩
        simp at hb'
    · rcases hpp : producePartsForCores stop provider lang ("␞" ++ hex ++ "␞") maxPayload
          ((((collect_text_slots_in_block block).map surviveSlot).filterMap id).map
            (fun x => x.2.1)) s1 with ⟨r2, s2⟩
      obtain ⟨hq1, hq2⟩ := obs_producePartsForCores stop provider lang ("␞" ++ hex ++ "␞")
        maxPayload
        ((((collect_text_slots_in_block block).map surviveSlot).filterMap id).map
          (fun x => x.2.1)) s1 hs1o
      rw [hpp] at hq1 hq2
      simp only at hq1 hq2
      have hred : translate_one_block_preserve_markup stop provider block lang maxPayload hex s =
          (match (r2, s2) with
           | (.ok (some parts), s2) =>
             ((.ok ("OK",
               (applySlots block
                 (buildNews ((collect_text_slots_in_block block).map surviveSlot) parts)).1) :
               Except DrvErr (String × Elem)), s2)
           | (.ok none, s2) => ((.ok ("CANCEL", block) : Except DrvErr (String × Elem)), s2)
           | (.error e, s2) => ((.error e : Except DrvErr (String × Elem)), s2)) := by
        have hempf :
            (((collect_text_slots_in_block block).map surviveSlot).filterMap id).isEmpty =
              false := by
          rcases hoo :
              (((collect_text_slots_in_block block).map surviveSlot).filterMap id).isEmpty
            with - | -
          · rfl
          · exact absurd hoo hemp
        simp only [translate_one_block_preserve_markup, checkStop, hb2, Bool.or_false,
          hempf, hs1v, Bool.false_eq_true, if_false]
        rw [hpp]
      rcases r2 with e | o
      · rw [hred]
        refine ⟨by rw [hq1, hs1calls], ?_⟩
        constructor
        · intro ho
          have := hq2.mp ho
          cases this
        · rintro ⟨b', hb'⟩
          cases hb'
      · rcases o with - | parts
        · rw [hred]
          refine ⟨by rw [hq1, hs1calls], ?_⟩
          constructor
          · intro _
            exact ⟨block, rfl⟩
          · intro _
            exact hq2.mpr rfl
        · rw [hred]
          refine ⟨by rw [hq1, hs1calls], ?_⟩
          constructor
          · intro ho
            have := hq2.mp ho
            cases this
          · rintro ⟨b', hb'⟩
            simp at hb'

theorem tryAttempts_error (t lang : String) :
    ∀ (n : Nat) (s : St) (e : DrvErr) (s' : St),
      tryAttempts provider t lang n s = (.error e, s') → e = .provider := by
  intro n
  induction n with
  | zero =>
    intro s e s' h
    simp only [tryAttempts, Prod.mk.injEq, Except.error.injEq] at h
    exact h.1.symm
  | succ m ih =>
    intro s e s' h
    simp only [tryAttempts] at h
    split at h
    · simp at h
    · split at h
      · simp only [Prod.mk.injEq, Except.error.injEq] at h
        exact h.1.symm
      · rename_i s1 hnc hm
        exact ih s1 e s' h

theorem translate_text_error (text : Option String) (lang : String)
    (s : St) (e : DrvErr) (s' : St)
    (h : translate_text provider text lang s = (.error e, s')) : e = .provider := by
  simp only [translate_text] at h
  split at h
  · simp at h
  · split at h
    · simp at h
    · exact tryAttempts_error provider _ lang 4 s e s' h

theorem fallbackCores_error (lang : String) :
    ∀ (cs : List String) (s : St) (e : DrvErr) (s' : St),
      fallbackCores stop provider lang cs s = (.error e, s') → e = .provider := by
  intro cs
  induction cs with
  | nil =>
    intro s e s' h
    simp [fallbackCores] at h
  | cons c cs ih =>
    intro s e s' h
    simp only [fallbackCores] at h
    split at h
    · simp at h
    · split at h
      · rename_i e2 s2 htt
        simp only [Prod.mk.injEq, Except.error.injEq] at h
        rw [← h.1]
        exact translate_text_error provider (some c) lang _ e2 s2 htt
      · rename_i t s2 htt
        split at h
        · simp at h
        · rename_i hne
          rcases hother : fallbackCores stop provider lang cs s2 with ⟨r3, s3⟩
          rw [hother] at h hne
          rcases r3 with e3 | o
          · simp only [Prod.mk.injEq, Except.error.injEq] at h
            rw [← h.1]
            exact ih s2 e3 s3 hother
          · rcases o with - | parts
            · simp at h
            · exact absurd rfl (hne parts s3)

theorem processChunks_error (lang delim : String) :
    ∀ (chunks : List (List String)) (s : St) (e : DrvErr) (s' : St),
      processChunks stop provider lang delim chunks s = (.error e, s') →
      e = .provider := by
  intro chunks
  induction chunks with
  | nil =>
    intro s e s' h
    simp [processChunks] at h
  | cons ch rest ih =>
    intro s e s' h
    simp only [processChunks] at h
    split at h
    · simp at h
    · split at h
      · rename_i e2 s2 htt
        simp only [Prod.mk.injEq, Except.error.injEq] at h
        rw [← h.1]
        exact translate_text_error provider _ lang _ e2 s2 htt
      · rename_i translated s2 htt
        split at h
        · rename_i ps s3 hifeq
          split at h
          · simp at h
          · rename_i hne2
            rcases hother : processChunks stop provider lang delim rest s3 with ⟨r4, s4⟩
            rw [hother] at h hne2
            rcases r4 with e4 | o4
            · simp only [Prod.mk.injEq, Except.error.injEq] at h
              rw [← h.1]
              exact ih s3 e4 s4 hother
            · rcases o4 with - | rs
              · simp at h
              · exact absurd rfl (hne2 rs s4)
        · rename_i hne
          rcases hother : (if (splitDelim delim translated).length ≠ ch.length
              then fallbackCores stop provider lang ch s2
              else (.ok (some (splitDelim delim translated)), s2) :
               Except DrvErr (Option (List String)) × St) with ⟨r3, s3⟩
          rw [hother] at h hne
          rcases r3 with e3 | o3
          · simp only [Prod.mk.injEq, Except.error.injEq] at h
            rw [← h.1]
            split at hother
            · exact fallbackCores_error stop provider lang ch s2 e3 s3 hother
            · simp at hother
          · rcases o3 with - | ps
            · simp at h
            · exact absurd rfl (hne ps s3)

theorem producePartsForCores_error (lang delim : String) (maxPayload : Nat)
    (cores : List String) (s : St) (e : DrvErr) (s' : St)
    (h : producePartsForCores stop provider lang delim maxPayload cores s =
      (.error e, s')) : e = .provider := by
  simp only [producePartsForCores] at h
  split at h
  · rename_i outParts s1 hpc
    split at h
    · exact fallbackCores_error stop provider lang cores s1 e s' h
    · simp at h
  · rename_i hne
    rcases hother : processChunks stop provider lang delim
        (chunkCores delim maxPayload cores) s with ⟨r1, s1⟩
    rw [hother] at h hne
    rcases r1 with e1 | o1
    · simp only [Prod.mk.injEq, Except.error.injEq] at h
      rw [← h.1]
      exact processChunks_error stop provider lang delim _ s e1 s1 hother
    · rcases o1 with - | outParts
      · simp at h
      · exact absurd rfl (hne outParts s1)

theorem translate_one_block_error (block : Elem) (lang : String) (maxPayload : Nat)
    (hex : String) (s : St) (e : DrvErr) (s' : St)
    (h : translate_one_block_preserve_markup stop provider block lang maxPayload hex s =
      (.error e, s')) : e = .provider := by
  simp only [translate_one_block_preserve_markup] at h
  split at h
  · simp at h
  · split at h
    · simp at h
    · split at h
      · simp at h
      · simp at h
      · rename_i e2 s2 hpp
        simp only [Prod.mk.injEq, Except.error.injEq] at h
        rw [← h.1]
        exact producePartsForCores_error stop provider lang _ maxPayload _ _ e2 s2 hpp

theorem obs_driverGo (lang : String) (maxPayload : Nat) (hexs : Nat → String)
    (total : Nat) :
    ∀ (paths : List Path) (doc : Elem) (done : Nat) (s : St), s.observed = false →
      (driverGo stop provider lang maxPayload hexs total paths doc done s).2.callsAfterObs =
        s.callsAfterObs ∧
      ((driverGo stop provider lang maxPayload hexs total paths doc done s).2.observed = true ↔
        (driverGo stop provider lang maxPayload hexs total paths doc done s).1 =
          .error .annullato) := by
  intro paths
  induction paths with
  | nil =>
    intro doc done s h
    exact ⟨rfl, by simp [driverGo, h]⟩
  | cons p rest ih =>
    intro doc done s h
    rcases hcs : checkStop stop s with ⟨b, s1⟩
    have hcs' := hcs
    simp only [checkStop, Prod.mk.injEq] at hcs'
    obtain ⟨hbv, hs1v⟩ := hcs'
    have hs1obs : s1.observed = (s.observed || stop s.tick) := by rw [← hs1v]
    have hs1calls : s1.callsAfterObs = s.callsAfterObs := by rw [← hs1v]
    cases hb2 : stop s.tick with
    | true =>
      have hred : driverGo stop provider lang maxPayload hexs total (p :: rest) doc done s =
          (.error .annullato, s1) := by
        simp only [driverGo]
        rw [hcs, ← hbv, hb2]
      rw [hred]
      refine ⟨hs1calls, ?_⟩
      simp [hs1obs, hb2]
    | false =>
      have hs1o : s1.observed = false := by simp [hs1obs, h, hb2]
      rw [hb2, Bool.or_false] at hs1v
      have hred1 : driverGo stop provider lang maxPayload hexs total (p :: rest) doc done s =
          (match getAt doc p with
           | none => driverGo stop provider lang maxPayload hexs total rest doc done s1
           | some blk =>
             if SKIP_TAGS.contains
                 (match blk.tag with | some t => lowerStr t | none => "") then
               driverGo stop provider lang maxPayload hexs total rest doc (done + 1)
                 (pushEvent s1 (done + 1, total,
                   "Skip <" ++ (match blk.tag with | some t => lowerStr t | none => "") ++ ">"))
             else
               match translate_one_block_preserve_markup stop provider blk lang maxPayload
                   (hexs done) s1 with
               | (.error e, s2) => (.error e, s2)
               | (.ok r, s2) =>
                 if r.1 = "CANCEL" then (.error .annullato, s2)
                 else
                   driverGo stop provider lang maxPayload hexs total rest (setAt doc p r.2)
                     (done + 1) (pushEvent s2 (done + 1, total,
                       "Traduzione <" ++
                         (match blk.tag with | some t => lowerStr t | none => "") ++ ">"))) := by
        simp only [driverGo, checkStop, hb2, Bool.or_false, hs1v]
      rcases hget : getAt doc p with - | blk
      · rw [hred1, hget]
        obtain ⟨hi1, hi2⟩ := ih doc done s1 hs1o
        exact ⟨hi1.trans hs1calls, hi2⟩
      · have hred2 : driverGo stop provider lang maxPayload hexs total (p :: rest)
            doc done s =
            (if SKIP_TAGS.contains
                (match blk.tag with | some t => lowerStr t | none => "") = true then
              driverGo stop provider lang maxPayload hexs total rest doc (done + 1)
                (pushEvent s1 (done + 1, total,
                  "Skip <" ++ (match blk.tag with | some t => lowerStr t | none => "") ++ ">"))
            else
              match translate_one_block_preserve_markup stop provider blk lang maxPayload
                  (hexs done) s1 with
              | (.error e, s2) => (.error e, s2)
              | (.ok r, s2) =>
                if r.1 = "CANCEL" then (.error .annullato, s2)
                else
                  driverGo stop provider lang maxPayload hexs total rest (setAt doc p r.2)
                    (done + 1) (pushEvent s2 (done + 1, total,
                      "Traduzione <" ++
                        (match blk.tag with | some t => lowerStr t | none => "") ++ ">"))) := by
          rw [hred1, hget]
        by_cases hskip : SKIP_TAGS.contains
            (match blk.tag with | some t => lowerStr t | none => "") = true
        · rw [hred2, hskip]
          obtain ⟨hi1, hi2⟩ := ih doc (done + 1)
            (pushEvent s1 (done + 1, total,
              "Skip <" ++ (match blk.tag with | some t => lowerStr t | none => "") ++ ">"))
            (show (pushEvent s1 _).observed = false from hs1o)
          exact ⟨hi1.trans hs1calls, hi2⟩
        · have hskipf : SKIP_TAGS.contains
              (match blk.tag with | some t => lowerStr t | none => "") = false := by
            rcases hoo : SKIP_TAGS.contains
                (match blk.tag with | some t => lowerStr t | none => "") with - | -
            · rfl
            · exact absurd hoo hskip
          rcases hblk : translate_one_block_preserve_markup stop provider blk lang
              maxPayload (hexs done) s1 with ⟨rb, s2⟩
          obtain ⟨hq1, hq2⟩ := obs_translate_one_block stop provider blk lang maxPayload
            (hexs done) s1 hs1o
          rw [hblk] at hq1 hq2
          simp only at hq1 hq2
          rcases rb with e | r
          · -- provider failure: never the Annullato outcome
            have hred3 : driverGo stop provider lang maxPayload hexs total (p :: rest)
                doc done s = (.error e, s2) := by
              rw [hred2, hskipf, hblk]
              exact rfl
            have he : e = .provider :=
              translate_one_block_error stop provider blk lang maxPayload (hexs done)
                s1 e s2 hblk
            have ho2 : s2.observed = false := by
              rcases hoo : s2.observed with - | -
              · rfl
              · obtain ⟨b', hb'⟩ := hq2.mp hoo
                cases hb'
            rw [hred3]
            refine ⟨hq1.trans hs1calls, ?_⟩
            rw [ho2, he]
            constructor
            · intro hfalse; cases hfalse
            · intro habs
              simp at habs
          · have hred3 : driverGo stop provider lang maxPayload hexs total (p :: rest)
                doc done s =
                (if r.1 = "CANCEL" then (.error .annullato, s2)
                 else
                   driverGo stop provider lang maxPayload hexs total rest (setAt doc p r.2)
                     (done + 1) (pushEvent s2 (done + 1, total,
                       "Traduzione <" ++
                         (match blk.tag with | some t => lowerStr t | none => "") ++ ">"))) := by
              rw [hred2, hskipf, hblk]
              exact rfl
            by_cases hc : r.1 = "CANCEL"
            · rw [hred3, if_pos hc]
              have ho2 : s2.observed = true := by
                apply hq2.mpr
                exact ⟨r.2, by rw [← hc]⟩
              refine ⟨hq1.trans hs1calls, ?_⟩
              rw [ho2]
              simp
            · rw [hred3, if_neg hc]
              have ho2 : s2.observed = false := by
                rcases hoo : s2.observed with - | -
                · rfl
                · obtain ⟨b', hb'⟩ := hq2.mp hoo
                  simp only [Except.ok.injEq] at hb'
                  exact absurd (by rw [hb']) hc
              obtain ⟨hi1, hi2⟩ := ih (setAt doc p r.2) (done + 1)
                (pushEvent s2 (done + 1, total,
                  "Traduzione <" ++
                    (match blk.tag with | some t => lowerStr t | none => "") ++ ">"))
                (show (pushEvent s2 _).observed = false from ho2)
              exact ⟨hi1.trans (hq1.trans hs1calls), hi2⟩

end Cancellation

/-- C1: in every driver run started with the cancellation signal not yet
observed, (i) no network call is ever issued after some `is_set()` check has
returned true (`callsAfterObs` counts exactly those calls and stays at its
initial value), and (ii) the run ends in the distinguished `Annullato` outcome
exactly when some check observed the signal — in particular cancellation is
never reported as the provider-failure outcome, and a provider failure is
never reported as cancellation. -/
theorem c1_cancellation_short_circuits (stop : Nat → Bool)
    (provider : Nat → String → String → Option String)
    (doc : Elem) (lang : String) (selTags : List String) (maxPayload : Nat)
    (hexs : Nat → String) (s : St) (h : s.observed = false) :
    (translate_full_html_blocks stop provider doc lang selTags maxPayload hexs s).2.callsAfterObs =
      s.callsAfterObs ∧
    ((translate_full_html_blocks stop provider doc lang selTags maxPayload hexs s).1 =
        .error .annullato ↔
      (translate_full_html_blocks stop provider doc lang selTags maxPayload hexs s).2.observed =
        true) := by
  obtain ⟨hg1, hg2⟩ := obs_driverGo stop provider lang maxPayload hexs
    (pathsUnder selTags false doc []).length (pathsUnder selTags false doc []) doc 0 s h
  rcases hgo : driverGo stop provider lang maxPayload hexs
      (pathsUnder selTags false doc []).length (pathsUnder selTags false doc []) doc 0 s
    with ⟨r, s1⟩
  rw [hgo] at hg1 hg2
  simp only at hg1 hg2
  rcases r with e | doc1
  · have hred : translate_full_html_blocks stop provider doc lang selTags maxPayload hexs s =
        (.error e, s1) := by
      simp only [translate_full_html_blocks]
      rw [hgo]
    rw [hred]
    refine ⟨hg1, ?_⟩
    have hg2' : s1.observed = true ↔ e = DrvErr.annullato := by
      rw [hg2]
      simp
    show (Except.error e : Except DrvErr (String × Elem)) = .error .annullato ↔
      s1.observed = true
    constructor
    · intro habs
      simp only [Except.error.injEq] at habs
      exact hg2'.mpr habs
    · intro ho
      rw [hg2'.mp ho]
  · have hred : translate_full_html_blocks stop provider doc lang selTags maxPayload hexs s =
        (.ok ("<!doctype html>\n" ++ tostringHtml doc1, doc1), s1) := by
      simp only [translate_full_html_blocks]
      rw [hgo]
    rw [hred]
    refine ⟨hg1, ?_⟩
    constructor
    · intro habs
      cases habs
    · intro ho
      have := hg2.mp ho
      cases this

theorem c1_witness :
    (translate_full_html_blocks (fun _ => true) provNone docW "it" ["p"] 3500
      (fun _ => "abc") stInit).2.callsAfterObs = stInit.callsAfterObs ∧
    ((translate_full_html_blocks (fun _ => true) provNone docW "it" ["p"] 3500
        (fun _ => "abc") stInit).1 = .error .annullato ↔
      (translate_full_html_blocks (fun _ => true) provNone docW "it" ["p"] 3500
        (fun _ => "abc") stInit).2.observed = true) :=
  c1_cancellation_short_circuits (fun _ => true) provNone docW "it" ["p"] 3500
    (fun _ => "abc") stInit rfl

/-- A document with a body but no translatable blocks (empty body). -/
def docEmpty : Elem :=
  .mk (some "html") [] none none [.mk (some "body") [] none none []]

/-- C8 counterexample: with the cancellation signal set before the call and a
selector matching zero blocks, `translate_full_html_blocks` completes
normally — it emits the transformed output and does NOT end in the canceled
outcome (the cancellation check sits inside the per-block loop, which never
runs), refuting the claim for zero-block selectors. -/
theorem c8_counterexample :
    (translate_full_html_blocks (fun _ => true) provNone docEmpty "it" ["p"] 3500
      (fun _ => "abc") stInit).1 =
      .ok ("<!doctype html>\n" ++ tostringHtml docEmpty, docEmpty) ∧
    (translate_full_html_blocks (fun _ => true) provNone docEmpty "it" ["p"] 3500
      (fun _ => "abc") stInit).1 ≠ .error .annullato := by
  constructor
  · rfl
  · intro habs
    have h1 : (translate_full_html_blocks (fun _ => true) provNone docEmpty "it" ["p"] 3500
        (fun _ => "abc") stInit).1 =
        .ok ("<!doctype html>\n" ++ tostringHtml docEmpty, docEmpty) := rfl
    rw [h1] at habs
    exact Except.noConfusion habs

/-- C8 (amended): if the cancellation signal is already set before the driver
call begins and the selector matches at least one block, the call terminates
in the canceled (`Annullato`) outcome, emits no transformed output (the run
produces no output string), and performs zero network calls (`callTicks` and
the cache are unchanged).  When the selector matches zero blocks the call
instead completes normally (still with zero network calls) and emits the
untranslated document, as the counterexample shows. -/
theorem c8_preset_cancel_amended (stop : Nat → Bool)
    (provider : Nat → String → String → Option String)
    (doc : Elem) (lang : String) (selTags : List String) (maxPayload : Nat)
    (hexs : Nat → String) (s : St)
    (h1 : stop s.tick = true) (h2 : pathsUnder selTags false doc [] ≠ []) :
    (translate_full_html_blocks stop provider doc lang selTags maxPayload hexs s).1 =
      .error .annullato ∧
    (translate_full_html_blocks stop provider doc lang selTags maxPayload hexs s).2.callTicks =
      s.callTicks ∧
    (translate_full_html_blocks stop provider doc lang selTags maxPayload hexs s).2.cache =
      s.cache := by
  rcases hb : pathsUnder selTags false doc [] with - | ⟨p, rest⟩
  · exact absurd hb h2
  · have hgo : driverGo stop provider lang maxPayload hexs (p :: rest).length
        (p :: rest) doc 0 s =
        (.error .annullato, { s with
          tick := s.tick + 1
          observed := true }) := by
      simp only [driverGo, checkStop, h1, Bool.or_true]
    have hred : translate_full_html_blocks stop provider doc lang selTags maxPayload hexs s =
        (.error .annullato, { s with
          tick := s.tick + 1
          observed := true }) := by
      simp only [translate_full_html_blocks]
      rw [hb, hgo]
    rw [hred]
    exact ⟨rfl, rfl, rfl⟩

theorem c8_witness :
    stop0 stInit.tick = true ∧
    pathsUnder ["p"] false docW [] ≠ [] ∧
    (translate_full_html_blocks stop0 provNone docW "it" ["p"] 3500
      (fun _ => "abc") stInit).1 = .error .annullato ∧
    (translate_full_html_blocks stop0 provNone docW "it" ["p"] 3500
      (fun _ => "abc") stInit).2.callTicks = stInit.callTicks :=
  ⟨rfl, by decide,
   (c8_preset_cancel_amended stop0 provNone docW "it" ["p"] 3500 (fun _ => "abc")
     stInit rfl (by decide)).1,
   (c8_preset_cancel_amended stop0 provNone docW "it" ["p"] 3500 (fun _ => "abc")
     stInit rfl (by decide)).2.1⟩

theorem c3_witness :
    (producePartsForCores (fun _ => false) provNum "it" "␞abc␞" 3500 ["ab", "cd"]
      stInit).1 = .ok (some ["T1", "T2"]) ∧
    (["T1", "T2"] : List String).length = (["ab", "cd"] : List String).length :=
  ⟨rfl,
   c3_write_back_one_to_one (fun _ => false) provNum "it" "␞abc␞" 3500 ["ab", "cd"]
     stInit ["T1", "T2"]
     (producePartsForCores (fun _ => false) provNum "it" "␞abc␞" 3500 ["ab", "cd"]
       stInit).2 rfl⟩

theorem c7_witness :
    (∀ n x l, (provCiao n x l).isSome = true) ∧
    ((translate_text provCiao (some "hi") "it"
        (translate_text provCiao (some "hi") "it" stInit).2).2).callTicks.length ≤
      stInit.callTicks.length + 1 :=
  ⟨fun _ _ _ => rfl,
   (c7_cache_amended provCiao (some "hi") "it" stInit (fun _ _ _ => rfl)).1⟩

end EpubT
